import Mathlib

/-!
# forkequeue: the `levelqueue.Server` registry and its scan scheduler

A shallow embedding of `src/levelqueue/server.go`.  Go `int` values are
integers, Go strings are byte sequences, goroutine spawns, channel sends and
calls into code outside `server.go` are recorded in an effect trace.
-/

namespace Levelqueue

/-! ## Numeric conversions -/

/-- Value of the Go conversion `float64(n)` for a natural number `n`: numbers
below `2^53` are exact, larger ones are rounded to a 53-bit significand, to
nearest with ties to even.  The result is always an integer. -/
def float64OfNat (n : Nat) : Nat :=
  if n < 2 ^ 53 then n
  else
    let e := Nat.log2 n - 52
    let q := n / 2 ^ e
    let r := n % 2 ^ e
    let half := 2 ^ (e - 1)
    if r < half then q * 2 ^ e
    else if r = half ∧ q % 2 = 0 then q * 2 ^ e
    else (q + 1) * 2 ^ e

/-- Value of `float64(n)` for a Go `int`. -/
def float64OfInt (n : Int) : Int :=
  if n < 0 then -((float64OfNat n.natAbs : Nat) : Int) else ((float64OfNat n.toNat : Nat) : Int)

/-- Go `int(float64(num) * 0.25)`: the product by `0.25` is exact in binary
floating point, and the conversion to `int` drops the fraction (toward zero). -/
def quarterOf (num : Int) : Int :=
  Int.tdiv (float64OfInt num) 4

/-- A `float64` value: the rational a finite one denotes, or one of the three
special values.  Every finite `float64` is a rational. -/
inductive F64 where
  | nan
  | negInf
  | posInf
  | fin (q : ℚ)
  deriving DecidableEq

/-- The comparison `a > b` on `float64`: false as soon as one side is NaN. -/
def F64.gt : F64 → F64 → Bool
  | F64.nan, _ => false
  | _, F64.nan => false
  | F64.negInf, _ => false
  | _, F64.posInf => false
  | F64.posInf, _ => true
  | F64.fin _, F64.negInf => true
  | F64.fin a, F64.fin b => decide (b < a)

/-- The comparison `a >= b` on `float64`. -/
def F64.ge : F64 → F64 → Bool
  | F64.nan, _ => false
  | _, F64.nan => false
  | F64.posInf, _ => true
  | _, F64.negInf => true
  | F64.negInf, _ => false
  | F64.fin _, F64.posInf => false
  | F64.fin a, F64.fin b => decide (b ≤ a)

/-- The binary exponent of a positive rational `q`: the integer `e` with
`2^e ≤ q < 2^(e+1)`. -/
def binExponent (q : ℚ) : Int :=
  let e : Int := (Nat.log2 q.num.natAbs : Int) - (Nat.log2 q.den : Int)
  if q < (2 : ℚ) ^ e then e - 1 else e

/-- Rounding of a non-negative rational to an integer, to nearest with ties to
even. -/
def roundHalfEven (x : ℚ) : Int :=
  let f := Int.floor x
  let r := x - (f : ℚ)
  if r < 1 / 2 then f
  else if r = 1 / 2 ∧ f % 2 = 0 then f
  else f + 1

/-- Rounding of a positive rational to the nearest `float64` (53-bit
significand, ties to even), for values in the normal range. -/
def roundF64Pos (q : ℚ) : ℚ :=
  let s : Int := 52 - binExponent q
  (roundHalfEven (q * (2 : ℚ) ^ s) : ℚ) * (2 : ℚ) ^ (-s)

/-- Rounding of a rational to the nearest `float64`. -/
def roundF64 (q : ℚ) : ℚ :=
  if q = 0 then 0 else if q < 0 then -(roundF64Pos (-q)) else roundF64Pos q

/-- The Go expression `float64(a) / float64(b)` for Go `int`s `a` and `b`: the
IEEE quotient of the two converted values, correctly rounded; a zero divisor
gives an infinity, or NaN for `0 / 0`. -/
def f64DivInt (a b : Int) : F64 :=
  let x := float64OfInt a
  let y := float64OfInt b
  if y = 0 then
    (if x = 0 then F64.nan else if 0 < x then F64.posInf else F64.negInf)
  else F64.fin (roundF64 ((x : ℚ) / (y : ℚ)))

/-! ## Go strings and the JSON codec -/

/-- A Go string: a sequence of bytes. -/
abbrev GoString := List (Fin 256)

/-- A UTF-8 continuation byte (`0x80 .. 0xBF`). -/
def isCont (b : Fin 256) : Bool := decide (0x80 ≤ b.val ∧ b.val ≤ 0xBF)

/-- The bytes of `s` start with `n` continuation bytes. -/
def contPrefix : Nat → GoString → Bool
  | 0, _ => true
  | _ + 1, [] => false
  | n + 1, b :: rest => isCont b && contPrefix n rest

/-- The size reported by Go's `utf8.DecodeRuneInString` at the start of `s`, or
`0` where it reports the error rune with size one (no valid encoding starts
there).  The first byte selects the length and the range allowed for the second
byte, as in the tables of `unicode/utf8`. -/
def runeSize : GoString → Nat
  | [] => 0
  | b0 :: rest =>
    let c := b0.val
    if c < 0x80 then 1
    else if c < 0xC2 then 0
    else if c ≤ 0xDF then (if contPrefix 1 rest then 2 else 0)
    else if c ≤ 0xEF then
      match rest with
      | b1 :: rest2 =>
        let lo := if c = 0xE0 then 0xA0 else 0x80
        let hi := if c = 0xED then 0x9F else 0xBF
        if lo ≤ b1.val ∧ b1.val ≤ hi ∧ contPrefix 1 rest2 = true then 3 else 0
      | [] => 0
    else if c ≤ 0xF4 then
      match rest with
      | b1 :: rest2 =>
        let lo := if c = 0xF0 then 0x90 else 0x80
        let hi := if c = 0xF4 then 0x8F else 0xBF
        if lo ≤ b1.val ∧ b1.val ≤ hi ∧ contPrefix 2 rest2 = true then 4 else 0
      | [] => 0
    else 0

/-- The string a JSON string literal written by Go's `json.Marshal` denotes.
The documentation of `encoding/json` reads: string values encode as JSON
strings coerced to valid UTF-8, replacing invalid bytes with the Unicode
replacement rune.  Every valid UTF-8 sequence is copied (escaping is undone by
the reader) and the replacement rune U+FFFD, bytes `EF BF BD`, is written for
each byte that starts no valid sequence.  The first argument counts the bytes
of the current sequence still to copy. -/
def coerceUTF8 : Nat → GoString → GoString
  | _, [] => []
  | skip + 1, b :: rest => b :: coerceUTF8 skip rest
  | 0, b :: rest =>
    match runeSize (b :: rest) with
    | 0 => 0xEF :: 0xBF :: 0xBD :: coerceUTF8 0 rest
    | k + 1 => b :: coerceUTF8 k rest

/-- See `coerceUTF8`. -/
def toValidUTF8 (s : GoString) : GoString := coerceUTF8 0 s

/-- A JSON document. -/
inductive Json where
  | null
  | bool (b : Bool)
  | number (text : GoString)
  | string (s : GoString)
  | array (items : List Json)
  | object (members : List (GoString × Json))

/-- Contents of a file: bytes that are a JSON document, or bytes that are not. -/
inductive FileData where
  | doc (j : Json)
  | malformed (bytes : GoString)

/-- Go errors met in `server.go`. -/
inductive GoError where
  /-- An `os` error for which `os.IsNotExist` holds. -/
  | notExist
  /-- Any other error of the operating system, by its number. -/
  | os (errno : Nat)
  /-- The error `fmt.Errorf("failed to read metadata from %s - %s", fn, err)`. -/
  | readMetadata (cause : GoError)
  /-- The error `fmt.Errorf("failed to parse metadata in %s - %s", fn, err)`. -/
  | parseMetadata
  deriving DecidableEq, Repr

/-- The member name `topics`, in bytes. -/
def keyTopics : GoString := [0x74, 0x6F, 0x70, 0x69, 0x63, 0x73]

/-- The member name `name`, in bytes. -/
def keyName : GoString := [0x6E, 0x61, 0x6D, 0x65]

/-- The `Name` that `json.Unmarshal` leaves in one element of `m.Topics` for one
item of the `topics` array, `none` on a type mismatch: an object gives the
string under `name` (the empty string when there is none, or `null`), `null`
gives the zero value. -/
def decodeTopicItem : Json → Option GoString
  | Json.null => some []
  | Json.object members =>
    members.foldl
      (fun acc kv =>
        if kv.1 = keyName then
          match kv.2 with
          | Json.string s => acc.map (fun _ => s)
          | Json.null => acc
          | _ => none
        else acc)
      (some [])
  | _ => none

/-- The items of the `topics` array decoded in order, `none` when one of them
is a type mismatch. -/
def decodeTopicItems : List Json → Option (List GoString)
  | [] => some []
  | item :: items =>
    match decodeTopicItem item, decodeTopicItems items with
    | some n, some ns => some (n :: ns)
    | _, _ => none

/-- The value `json.Unmarshal` gives `m.Topics` for the JSON value under
`topics`: `null` gives the nil slice, an array its decoded items. -/
def decodeTopics : Json → Option (List GoString)
  | Json.null => some []
  | Json.array items => decodeTopicItems items
  | _ => none

/-- The call `json.Unmarshal(data, &m)` of `LoadMetadata`, returning the names
in `m.Topics`: malformed bytes and type mismatches are errors, the document
`null` leaves `m` empty, members other than `topics` are skipped.  This follows
`encoding/json` on documents whose member names are spelled as in the struct
tags and occur once, as in every file `PersistMetadata` writes; on other
documents the library also accepts other letter cases of a member name and
decodes a repeated `topics` member into the slice left by the earlier one,
where this function compares names exactly and lets the later member replace
the earlier. -/
def jsonUnmarshalMeta : FileData → Option (List GoString)
  | FileData.malformed _ => none
  | FileData.doc Json.null => some []
  | FileData.doc (Json.object members) =>
    members.foldl
      (fun acc kv =>
        if kv.1 = keyTopics then
          match acc, decodeTopics kv.2 with
          | some _, some names => some names
          | _, _ => none
        else acc)
      (some [])
  | FileData.doc _ => none

/-- The call `json.Marshal(&jsonData)` of `PersistMetadata`, for the topic names
appended to `topics` in order: the slice is nil when nothing was appended and
is then written as `null`. -/
def jsonMarshalMeta (names : List GoString) : FileData :=
  FileData.doc (Json.object [(keyTopics,
    match names with
    | [] => Json.null
    | _ :: _ =>
      Json.array (names.map (fun n => Json.object [(keyName, Json.string (toValidUTF8 n))])))])

/-! ## Options, effects and the server state -/

/-- Modelled from the spec: the `Options` type is declared outside `server.go`;
these are the fields `server.go` reads. -/
structure Options where
  DataPath : GoString
  PendingScanSelectionCount : Int
  PendingScanWorkerPoolMax : Int
  PendingScanDirtyPercent : F64
  deriving DecidableEq

/-- Modelled from the spec: a `*Topic`, the address of a Topic object together
with its immutable name; the rest of the Topic type is declared outside
`server.go`. -/
structure Topic where
  addr : Nat
  name : GoString
  deriving DecidableEq, Repr

/-- Effects of `server.go` on its collaborators, in program order. -/
inductive Effect where
  /-- The call `s.waitGroup.Wrap(pendingScanWorker ...)`: one worker goroutine spawned. -/
  | spawnWorker
  /-- The send `closeCh <- 1`: one worker told to stop. -/
  | stopSignal
  /-- The call `t.Start()`. -/
  | topicStart (t : Topic)
  /-- The call `topic.Close()`. -/
  | topicClose (t : Topic)
  /-- One run of `PersistMetadata`. -/
  | persistMetadata
  /-- The call `log.Printf("failed to persist metadata - %s\n", err)`. -/
  | logPersistFailure (err : GoError)
  /-- The call `s.pendingDB.Close()`. -/
  | closePendingDB
  /-- The call `s.checkSameDB.Close()`. -/
  | closeCheckSameDB
  /-- The send `workCh <- topics[i]`. -/
  | dispatch (t : Topic)
  /-- The call `close(closeCh)` at the exit of the scan loop. -/
  | closeWorkers
  deriving DecidableEq, Repr

/-- The `Server` of `server.go`.  `topicMap` lists the entries of the Go map,
one per key; `exitChanClosed` is the state of `exitChan`, on which nothing is
ever sent; `notifyChan` is the buffer (capacity one) of the channel;
`allocated` counts the Topic objects allocated so far; `trace` is the effect
trace. -/
structure Server where
  opts : Options
  topicMap : List (GoString × Topic)
  exitChanClosed : Bool
  isLoading : Int
  isExiting : Int
  notifyChan : List Nat
  poolSize : Int
  allocated : Nat
  trace : List Effect
  deriving DecidableEq

/-- The function `New(opts)`. -/
def New (opts : Options) : Server :=
  { opts := opts, topicMap := [], exitChanClosed := false, isLoading := 0, isExiting := 0,
    notifyChan := [], poolSize := 0, allocated := 0, trace := [] }

/-- The Go map read `m[key]` with its `ok` flag. -/
def mapLookup (m : List (GoString × Topic)) (key : GoString) : Option Topic :=
  match m with
  | [] => none
  | kv :: rest => if kv.1 = key then some kv.2 else mapLookup rest key

/-- The Go map write `m[key] = t`: the entry of `key` is replaced, or a new
entry is added. -/
def mapStore (m : List (GoString × Topic)) (key : GoString) (t : Topic) :
    List (GoString × Topic) :=
  match m with
  | [] => [(key, t)]
  | kv :: rest => if kv.1 = key then (key, t) :: rest else kv :: mapStore rest key t

/-- The keys of a Go map. -/
def mapKeys (m : List (GoString × Topic)) : List GoString := m.map Prod.fst

/-- State of the metadata file `newMetadataFile(opts)` on disk. -/
inductive FileState where
  /-- No such file. -/
  | absent
  /-- The file exists and reading it fails with the given error. -/
  | unreadable (errno : Nat)
  /-- The file exists and reads as the given contents. -/
  | present (data : FileData)

/-- What one run of `PersistMetadata`, alone or inside `Exit`, meets outside the
program: the order in which the `range` of `PersistMetadata` (line 117) visits
the Go map (unspecified by the language, drawn anew by every `range`), the
result of `writeSyncFile` on the temporary file, the result of `os.Rename`, and
the order in which the `range` of `Exit` (line 220) visits the map. -/
structure PersistEnv where
  rangeOrder : List (GoString × Topic) → List (GoString × Topic)
  writeErr : Option GoError
  renameErr : Option GoError
  closeOrder : List (GoString × Topic) → List (GoString × Topic)

/-- The environment in which every call succeeds and `range` follows the list. -/
def PersistEnv.ok : PersistEnv :=
  { rangeOrder := fun m => m, writeErr := none, renameErr := none, closeOrder := fun m => m }

/-- The asserted property of `range`: it visits every entry once. -/
def PersistEnv.Fair (env : PersistEnv) : Prop :=
  ∀ m, (env.rangeOrder m).Perm m

/-- The call `ioutil.ReadFile(fn)` on the metadata file: data and error. -/
def readFile : FileState → Option FileData × Option GoError
  | FileState.absent => (none, some GoError.notExist)
  | FileState.unreadable errno => (none, some (GoError.os errno))
  | FileState.present data => (some data, none)

/-- The predicate `os.IsNotExist(err)`. -/
def isNotExist : GoError → Bool
  | GoError.notExist => true
  | _ => false

/-- The function `readOrEmpty(fn)` (lines 56-64). -/
def readOrEmpty (file : FileState) : Option FileData × Option GoError :=
  match readFile file with
  | (data, some err) =>
    if !isNotExist err then (none, some (GoError.readMetadata err))
    else (data, none)
  | (data, none) => (data, none)

/-- The call `t.Start()`, recorded in the trace. -/
def Topic.Start (t : Topic) (s : Server) : Server :=
  { s with trace := s.trace ++ [Effect.topicStart t] }

/-- The call `topic.Close()`, recorded in the trace. -/
def Topic.Close (t : Topic) (s : Server) : Server :=
  { s with trace := s.trace ++ [Effect.topicClose t] }

/-- Modelled from the spec: `NewTopic(topicName, s)`, defined outside
`server.go`, allocates a Topic with the given name. -/
def NewTopic (topicName : GoString) (s : Server) : Topic × Server :=
  ({ addr := s.allocated, name := topicName }, { s with allocated := s.allocated + 1 })

/-- The method `Server.GetTopic(topicName)` (lines 146-173), run without
interference: the lookup under the read lock, the second lookup under the
write lock, then creation. -/
def GetTopic (topicName : GoString) (s : Server) : Topic × Server :=
  match mapLookup s.topicMap topicName with
  | some t => (t, s)
  | none =>
    match mapLookup s.topicMap topicName with
    | some t => (t, s)
    | none =>
      let (t, s1) := NewTopic topicName s
      let s2 := { s1 with topicMap := mapStore s1.topicMap topicName t }
      if s2.isLoading = 1 then (t, s2)
      else (t, Topic.Start t s2)

/-- The method `Server.topics()`. -/
def topics (rangeOrder : List (GoString × Topic) → List (GoString × Topic)) (s : Server) :
    List Topic :=
  (rangeOrder s.topicMap).map Prod.snd

/-- The loop of `LoadMetadata` over `m.Topics` (lines 101-106). -/
def loadTopics (names : List GoString) (s : Server) : Server :=
  names.foldl (fun s name => let r := GetTopic name s; Topic.Start r.1 r.2) s

/-- The method `Server.LoadMetadata()` (lines 81-108) on the given state of the
metadata file; the deferred store resets `isLoading` on every return. -/
def LoadMetadata (file : FileState) (s : Server) : Option GoError × Server :=
  let s := { s with isLoading := 1 }
  match readOrEmpty file with
  | (_, some err) => (some err, { s with isLoading := 0 })
  | (none, none) => (none, { s with isLoading := 0 })
  | (some data, none) =>
    match jsonUnmarshalMeta data with
    | none => (some GoError.parseMetadata, { s with isLoading := 0 })
    | some names =>
      let s := loadTopics names s
      (none, { s with isLoading := 0 })

/-- The method `Server.PersistMetadata()` (lines 110-144): error, server (its
trace records the run) and the metadata file afterwards.  The file changes
only when the write of the temporary file and the rename both succeed. -/
def PersistMetadata (env : PersistEnv) (s : Server) (file : FileState) :
    Option GoError × Server × FileState :=
  let s := { s with trace := s.trace ++ [Effect.persistMetadata] }
  let names := (env.rangeOrder s.topicMap).map (fun kv => kv.2.name)
  let data := jsonMarshalMeta names
  match env.writeErr with
  | some err => (some err, s, file)
  | none =>
    match env.renameErr with
    | some err => (some err, s, file)
    | none => (none, s, FileState.present data)

/-- The lines `err := s.PersistMetadata(); if err != nil { log.Printf(...) }`
shared by `Notify` and `Exit`. -/
def persistAndLog (env : PersistEnv) (s : Server) (file : FileState) : Server × FileState :=
  match PersistMetadata env s file with
  | (some err, s, file) => ({ s with trace := s.trace ++ [Effect.logPersistFailure err] }, file)
  | (none, s, file) => (s, file)

/-- The closure built by `Notify(v)`: the flag `loading` is read when `Notify`
is called, the body runs later in its own goroutine. -/
structure NotifyTask where
  loading : Bool
  v : Nat
  deriving DecidableEq, Repr

/-- The method `Server.Notify(v)` (lines 185-205): reads the loading flag and
hands the closure to `waitGroup.Wrap`. -/
def Notify (v : Nat) (s : Server) : NotifyTask :=
  { loading := decide (s.isLoading = 1), v := v }

/-- The two cases of the `select` in the closure of `Notify`. -/
inductive NotifyCase where
  /-- The case `<-s.exitChan`. -/
  | exit
  /-- The case `s.notifyChan <- v`. -/
  | handoff
  deriving DecidableEq, Repr

/-- The closure of `Notify` once `select` has chosen `choice`, on the state the
goroutine finds; `none` when that case cannot proceed (the exit channel is
still open, or the slot of `notifyChan` is taken). -/
def notifyBody (task : NotifyTask) (choice : NotifyCase) (env : PersistEnv)
    (s : Server) (file : FileState) : Option (Server × FileState) :=
  match choice with
  | NotifyCase.exit => if s.exitChanClosed then some (s, file) else none
  | NotifyCase.handoff =>
    if s.notifyChan.length < 1 then
      let s1 := { s with notifyChan := s.notifyChan ++ [task.v] }
      if task.loading then
        some ({ s1 with notifyChan := s1.notifyChan.tail }, file)
      else
        let r := persistAndLog env s1 file
        some ({ r.1 with notifyChan := r.1.notifyChan.tail }, r.2)
    else none

/-- A Go run-time panic. -/
inductive GoPanic where
  /-- The panic `close of closed channel`. -/
  | closeOfClosedChannel
  deriving DecidableEq, Repr

/-- The method `Server.Exit()` (lines 209-228).  `waitGroup.Wait()` returns
once the goroutines have seen the closed `exitChan`; it changes nothing here. -/
def Exit (env : PersistEnv) (s : Server) (file : FileState) :
    Except GoPanic (Server × FileState) :=
  if s.isExiting ≠ 0 then Except.ok (s, file)
  else
    let s := { s with isExiting := 1 }
    let r := persistAndLog env s file
    let s := (env.closeOrder r.1.topicMap).foldl (fun s kv => Topic.Close kv.2 s) r.1
    if s.exitChanClosed then Except.error GoPanic.closeOfClosedChannel
    else
      let s := { s with exitChanClosed := true }
      let s := { s with trace := s.trace ++ [Effect.closePendingDB, Effect.closeCheckSameDB] }
      Except.ok (s, r.2)

/-! ## The scan scheduler -/

/-- The target computed at the top of `resizePool` (lines 265-270). -/
def poolTarget (num : Int) (s : Server) : Int :=
  let poolSize := quarterOf num
  if poolSize < 1 then 1
  else if poolSize > s.opts.PendingScanWorkerPoolMax then s.opts.PendingScanWorkerPoolMax
  else poolSize

/-- The `for` loop of `resizePool` (lines 272-284) for a computed target
`poolSize`; returns the final server and the number of iterations that did not
`break`.  The send `closeCh <- 1` is taken to be received: `s.poolSize` counts
the live workers and a stop is sent only while it exceeds the target, so for a
target of at least 0 a worker is there to receive it.  For a target below 0 the
code blocks at that send once no worker is left, which this function does not
show; the results on `resizePool` below are for targets of at least 1. -/
def resizeLoop (poolSize : Int) (s : Server) : Server × Nat :=
  if poolSize = s.poolSize then (s, 0)
  else if poolSize < s.poolSize then
    let r := resizeLoop poolSize
      { s with trace := s.trace ++ [Effect.stopSignal], poolSize := s.poolSize - 1 }
    (r.1, r.2 + 1)
  else
    let r := resizeLoop poolSize
      { s with trace := s.trace ++ [Effect.spawnWorker], poolSize := s.poolSize + 1 }
    (r.1, r.2 + 1)
termination_by (poolSize - s.poolSize).natAbs
decreasing_by
  all_goals simp_wf
  all_goals omega

/-- The method `Server.resizePool(num, workCh, responseCh, closeCh)`. -/
def resizePool (num : Int) (s : Server) : Server :=
  (resizeLoop (poolTarget num s) s).1

/-- Where the goroutine of `pendingMsgScanLoop` stands. -/
inductive ScanPoint where
  /-- Blocked in the `select` at the top of the outer loop, waiting for a tick. -/
  | awaitTick
  /-- At the label `loop`, about to sample `num` topics. -/
  | pass (num : Int)
  /-- Past the label `exit`. -/
  | exited
  deriving DecidableEq, Repr

/-- The goroutine of `pendingMsgScanLoop`: its local `topics`, its position, and
the server. -/
structure ScanLoop where
  topics : List Topic
  point : ScanPoint
  server : Server
  deriving DecidableEq

/-- The channel on which the `select` of the scan loop receives. -/
inductive ScanEvent where
  | workerTick
  | refreshTick
  | exitChan
  deriving DecidableEq, Repr

/-- The start of `pendingMsgScanLoop` (lines 305-313). -/
def pendingMsgScanLoopStart
    (rangeOrder : List (GoString × Topic) → List (GoString × Topic)) (s : Server) : ScanLoop :=
  let ts := topics rangeOrder s
  { topics := ts, point := ScanPoint.awaitTick, server := resizePool (ts.length : Int) s }

/-- One receive of the `select` at lines 316-327, up to the label `loop`; the
state is returned as it is when the loop is not blocked in that `select`. -/
def pendingMsgScanLoopSelect
    (rangeOrder : List (GoString × Topic) → List (GoString × Topic))
    (ev : ScanEvent) (st : ScanLoop) : ScanLoop :=
  match st.point with
  | ScanPoint.awaitTick =>
    match ev with
    | ScanEvent.workerTick =>
      if st.topics.length = 0 then st
      else
        let num := st.server.opts.PendingScanSelectionCount
        let num := if num > (st.topics.length : Int) then (st.topics.length : Int) else num
        { st with point := ScanPoint.pass num }
    | ScanEvent.refreshTick =>
      let ts := topics rangeOrder st.server
      { st with topics := ts, server := resizePool (ts.length : Int) st.server }
    | ScanEvent.exitChan =>
      { st with point := ScanPoint.exited,
                server := { st.server with trace := st.server.trace ++ [Effect.closeWorkers] } }
  | _ => st

/-- The loop `for i := 0; i < num; i++ { if <-responseCh { numDirty++ } }`,
where `responses i` is the `i`-th value received. -/
def collectDirty (responses : Nat → Bool) : Nat → Nat
  | 0 => 0
  | i + 1 => collectDirty responses i + (if responses i then 1 else 0)

/-- One sampling pass (lines 334-348): the topics at the indices `picks`
returned by `util.UniqRands(num, len(topics))`, all below `len(topics)`, are
sent to the workers, `num` responses are collected, and the dirty ratio decides
between `goto loop` and the next round of the outer loop. -/
def pendingMsgScanLoopPass (picks : List Nat) (responses : Nat → Bool) (st : ScanLoop) :
    ScanLoop :=
  match st.point with
  | ScanPoint.pass num =>
    let sent := picks.filterMap (fun i => st.topics.get? i)
    let server := { st.server with trace := st.server.trace ++ sent.map Effect.dispatch }
    let numDirty := collectDirty responses num.toNat
    if F64.gt (f64DivInt (numDirty : Int) num) server.opts.PendingScanDirtyPercent then
      { st with server := server, point := ScanPoint.pass num }
    else
      { st with server := server, point := ScanPoint.awaitTick }
  | _ => st

/-! ## The durable queue and the process-level calls -/

/-- Modelled from the spec: the errors of the queue operations (§7); the queue
is implemented outside `server.go`. -/
inductive QueueError where
  | emptyQueue
  | storeIO
  deriving DecidableEq, Repr

/-- Modelled from the spec: the PersistentQueue of one topic (§3, §4.1), which
is implemented outside `server.go`: the next sequence id, the ready set (id and
payload) and the in-flight set (id, payload and deadline).  Ids are natural
numbers: the 64-bit counter of the spec is taken not to wrap. -/
structure PersistentQueue where
  nextId : Nat
  ready : List (Nat × GoString)
  inFlight : List (Nat × GoString × Int)
  deriving DecidableEq, Repr

/-- Modelled from the spec: `push(payload)` (§4.1) appends the payload under a
freshly allocated id into the ready set, and fails with StoreIOError when the
underlying write fails. -/
def PersistentQueue.push (payload : GoString) (writeFails : Bool) (q : PersistentQueue) :
    Except QueueError Nat × PersistentQueue :=
  if writeFails then (Except.error QueueError.storeIO, q)
  else (Except.ok q.nextId,
        { q with nextId := q.nextId + 1, ready := q.ready ++ [(q.nextId, payload)] })

/-- The entry with the smallest id of a ready set. -/
def smallestId : List (Nat × GoString) → Option (Nat × GoString)
  | [] => none
  | e :: rest =>
    match smallestId rest with
    | none => some e
    | some m => if e.1 ≤ m.1 then some e else some m

/-- Modelled from the spec: `pop()` (§4.1) selects the smallest id in the ready
set, removes it from ready and inserts it into in-flight with deadline
`now + visibility timeout`; it fails with EmptyQueueError if no ready entry
exists. -/
def PersistentQueue.pop (now timeout : Int) (q : PersistentQueue) :
    Except QueueError (Nat × GoString) × PersistentQueue :=
  match smallestId q.ready with
  | none => (Except.error QueueError.emptyQueue, q)
  | some e =>
    (Except.ok e,
     { q with ready := q.ready.filter (fun x => decide (x.1 ≠ e.1)),
              inFlight := q.inFlight ++ [(e.1, e.2, now + timeout)] })

/-- The process: the server and the durable store, one queue per topic name. -/
structure Broker where
  server : Server
  store : GoString → PersistentQueue

/-- Modelled from the spec: the process-level `push(topic, payload)` (§6)
delegates to the queue of the named Topic, obtained through `GetTopic`; true on
durable acceptance. -/
def Push (topic payload : GoString) (writeFails : Bool) (b : Broker) : Bool × Broker :=
  let r := GetTopic topic b.server
  let p := (b.store r.1.name).push payload writeFails
  (p.1.isOk, { server := r.2, store := Function.update b.store r.1.name p.2 })

/-- Modelled from the spec: the process-level `pop(topic)` (§6) delegates to the
queue of the named Topic, obtained through `GetTopic`. -/
def Pop (topic : GoString) (now timeout : Int) (b : Broker) :
    Except QueueError (Nat × GoString) × Broker :=
  let r := GetTopic topic b.server
  let p := (b.store r.1.name).pop now timeout
  (p.1, { server := r.2, store := Function.update b.store r.1.name p.2 })

/-- A sequence of successful pushes to one topic. -/
def pushAll (topic : GoString) (payloads : List GoString) (b : Broker) : Broker :=
  payloads.foldl (fun b payload => (Push topic payload false b).2) b

/-- The results of `n` successive pops from one topic, and the process after
them. -/
def popMany (topic : GoString) (now timeout : Int) :
    Nat → Broker → List (Except QueueError (Nat × GoString)) × Broker
  | 0, b => ([], b)
  | n + 1, b =>
    let r := Pop topic now timeout b
    let rest := popMany topic now timeout n r.2
    (r.1 :: rest.1, rest.2)

/-- Every entry of the topic map holds a Topic of that name, as `GetTopic`
stores them. -/
def NamesAgree (m : List (GoString × Topic)) : Prop :=
  ∀ kv ∈ m, kv.2.name = kv.1

/-! ## Concrete inputs -/

/-- Options of a small installation: four topics sampled per tick, at most four
workers, dirty threshold `0.25`. -/
def sampleOpts : Options :=
  { DataPath := [], PendingScanSelectionCount := 4, PendingScanWorkerPoolMax := 4,
    PendingScanDirtyPercent := F64.fin (1 / 4) }

/-- A server holding one topic whose name is the single byte `0xFF`, which is
not valid UTF-8. -/
def invalidNameServer : Server :=
  { New sampleOpts with topicMap := [([0xFF], ⟨0, [0xFF]⟩)], allocated := 1 }

/-- A server holding the two topics `t` and `u`. -/
def twoTopicServer : Server :=
  { New sampleOpts with topicMap := [([0x74], ⟨0, [0x74]⟩), ([0x75], ⟨1, [0x75]⟩)],
                        allocated := 2 }

/-- A process just initialised on an empty data directory. -/
def freshBroker : Broker :=
  { server := New sampleOpts, store := fun _ => { nextId := 0, ready := [], inFlight := [] } }

/-- A scan loop over the two topics of `twoTopicServer`, at the label `loop`
with two topics to sample. -/
def twoTopicPass : ScanLoop :=
  { topics := [⟨0, [0x74]⟩, ⟨1, [0x75]⟩], point := ScanPoint.pass 2, server := twoTopicServer }

/-- The server `twoTopicServer` after `Exit` in an environment where every call
succeeds. -/
def exitedServer : Server :=
  { twoTopicServer with
      isExiting := 1,
      exitChanClosed := true,
      trace := [Effect.persistMetadata, Effect.topicClose ⟨0, [0x74]⟩,
        Effect.topicClose ⟨1, [0x75]⟩, Effect.closePendingDB, Effect.closeCheckSameDB] }

/-- The metadata file written for `twoTopicServer`. -/
def twoTopicFile : FileState :=
  FileState.present (jsonMarshalMeta [[0x74], [0x75]])

/-- The `float64` nearest to one third, `6004799503160661 / 2^54`: the value of
the Go expression `1.0 / 3.0`. -/
def thirdFloat : ℚ := 6004799503160661 / 18014398509481984

/-- Options with the dirty threshold set to the `float64` nearest to one
third. -/
def thirdOpts : Options :=
  { sampleOpts with PendingScanDirtyPercent := F64.fin thirdFloat }

/-- A scan loop over three topics, at the label `loop` with three topics to
sample, under `thirdOpts`. -/
def threeTopicPass : ScanLoop :=
  { topics := [⟨0, [0x74]⟩, ⟨1, [0x75]⟩, ⟨2, [0x76]⟩],
    point := ScanPoint.pass 3,
    server :=
      { New thirdOpts with
          topicMap := [([0x74], ⟨0, [0x74]⟩), ([0x75], ⟨1, [0x75]⟩), ([0x76], ⟨2, [0x76]⟩)],
          allocated := 3 } }

/-- Responses of the workers of which only the first is dirty. -/
def firstDirty : Nat → Bool := fun i => decide (i = 0)

/-! ## Specification-side definitions -/

/-- The spec's `clamp(x, lo, hi)`. -/
def clamp (x lo hi : Int) : Int := max lo (min x hi)

/-- The spec's pool target: `clamp(round(topicCount * 0.25), 1, PoolMax)`. -/
def specPoolTarget (topicCount poolMax : Int) : Int :=
  clamp (round ((topicCount : ℚ) * (1 / 4))) 1 poolMax

/-- The spec's `dirtyRatio = dirtyCount / num`, as the exact ratio. -/
def specDirtyRatio (numDirty : Nat) (num : Int) : ℚ :=
  (numDirty : ℚ) / (num : ℚ)

/-- The number of true values among the first `num` responses. -/
def dirtyCount (responses : Nat → Bool) (num : Nat) : Nat :=
  (List.range num).countP responses

/-- The unit roundoff of `float64`, `2^-53`: the largest relative error of one
rounding to nearest. -/
def unitRoundoff : ℚ := 1 / 9007199254740992

/-! ## Theorems -/

theorem float64OfNat_small (n : Nat) (h : n < 2 ^ 53) : float64OfNat n = n := by
  unfold float64OfNat; rw [if_pos h]

theorem quarterOf_small (num : Int) (h0 : 0 ≤ num) (h : num < 2 ^ 53) :
    quarterOf num = num / 4 := by
  unfold quarterOf float64OfInt
  rw [if_neg (by omega)]
  have hn : num.toNat < 2 ^ 53 := by omega
  rw [float64OfNat_small _ hn, Int.toNat_of_nonneg h0]
  exact Int.tdiv_eq_ediv h0 (by decide)

/-! ### The resize loop -/

theorem resizeLoop_eq (n : Nat) : ∀ (t : Int) (s : Server), (t - s.poolSize).natAbs = n →
    resizeLoop t s =
      ({ s with
          poolSize := t,
          trace := s.trace ++ List.replicate (t - s.poolSize).toNat Effect.spawnWorker
            ++ List.replicate (s.poolSize - t).toNat Effect.stopSignal }, n) := by
  induction n with
  | zero =>
    intro t s h
    have ht : t = s.poolSize := by omega
    rw [resizeLoop, if_pos ht]
    subst ht
    simp
  | succ k ih =>
    intro t s h
    rw [resizeLoop, if_neg (by omega)]
    by_cases hlt : t < s.poolSize
    · rw [if_pos hlt]
      have hk : (t - (s.poolSize - 1)).natAbs = k := by omega
      have h1 : (t - (s.poolSize - 1)).toNat = 0 := by omega
      have h2 : (s.poolSize - t).toNat = (s.poolSize - 1 - t).toNat + 1 := by omega
      have h3 : (t - s.poolSize).toNat = 0 := by omega
      rw [ih t _ hk]
      simp only [h1, h2, h3, List.replicate_zero, List.append_nil, List.replicate_succ,
        List.append_assoc, List.singleton_append]
    · rw [if_neg hlt]
      have hk : (t - (s.poolSize + 1)).natAbs = k := by omega
      have h1 : (s.poolSize + 1 - t).toNat = 0 := by omega
      have h2 : (t - s.poolSize).toNat = (t - (s.poolSize + 1)).toNat + 1 := by omega
      have h3 : (s.poolSize - t).toNat = 0 := by omega
      rw [ih t _ hk]
      simp only [h1, h2, h3, List.replicate_zero, List.append_nil, List.replicate_succ,
        List.append_assoc, List.singleton_append]

theorem resizeLoop_poolSize (t : Int) (s : Server) : (resizeLoop t s).1.poolSize = t := by
  rw [resizeLoop_eq _ t s rfl]

theorem resizePool_reaches_target (num : Int) (s : Server) :
    (resizePool num s).poolSize = poolTarget num s := by
  unfold resizePool
  exact resizeLoop_poolSize _ _

/-- Claim C5: from every pool size `p` and for every target `t`, the loop of
`resizePool` returns after exactly `|t - p|` iterations that change the pool:
it spawns `t - p` workers and sends no stop signal when `p < t`, sends `p - t`
stop signals and spawns no worker when `p > t`, does neither when `p = t`,
leaves the pool size equal to `t` and the rest of the server untouched; and
each iteration moves the pool size by exactly one toward `t`. -/
theorem resizeLoop_terminates_in_steps (t : Int) (s : Server) :
    (resizeLoop t s).2 = (t - s.poolSize).natAbs ∧
    (resizeLoop t s).1 =
      { s with
          poolSize := t,
          trace := s.trace ++ List.replicate (t - s.poolSize).toNat Effect.spawnWorker
            ++ List.replicate (s.poolSize - t).toNat Effect.stopSignal } ∧
    (s.poolSize < t → resizeLoop t s =
      ((resizeLoop t { s with trace := s.trace ++ [Effect.spawnWorker],
                              poolSize := s.poolSize + 1 }).1,
       (resizeLoop t { s with trace := s.trace ++ [Effect.spawnWorker],
                              poolSize := s.poolSize + 1 }).2 + 1)) ∧
    (t < s.poolSize → resizeLoop t s =
      ((resizeLoop t { s with trace := s.trace ++ [Effect.stopSignal],
                              poolSize := s.poolSize - 1 }).1,
       (resizeLoop t { s with trace := s.trace ++ [Effect.stopSignal],
                              poolSize := s.poolSize - 1 }).2 + 1)) := by
  refine ⟨?_, ?_, ?_, ?_⟩
  · rw [resizeLoop_eq _ t s rfl]
  · rw [resizeLoop_eq _ t s rfl]
  · intro h
    rw [resizeLoop, if_neg (by omega), if_neg (by omega)]
  · intro h
    rw [resizeLoop, if_neg (by omega), if_pos h]

/-! ### The pool target -/

theorem specFloor_eq (num : Int) : Int.floor ((num : ℚ) * (1 / 4)) = num / 4 := by
  have h : (num : ℚ) * (1 / 4) = (num : ℚ) / ((4 : ℕ) : ℚ) := by
    push_cast; ring
  rw [h, Rat.floor_intCast_div_natCast]
  rfl

/-- Claim C1, as amended: for a topic count `0 ≤ num < 2^53` (where the
conversion to `float64` is exact), an option `PendingScanWorkerPoolMax` of at
least one and every starting pool size, `resizePool` leaves the pool size at
`clamp(⌊num * 0.25⌋, 1, PoolMax)`, which lies between 1 and `PoolMax`.  The
refresh tick of the scan loop leaves this size for `num = len(topics)`. -/
theorem resizePool_poolSize_floor (num : Int) (s : Server) (h0 : 0 ≤ num) (h : num < 2 ^ 53)
    (hmax : 1 ≤ s.opts.PendingScanWorkerPoolMax) :
    (resizePool num s).poolSize =
      clamp (Int.floor ((num : ℚ) * (1 / 4))) 1 s.opts.PendingScanWorkerPoolMax ∧
    1 ≤ (resizePool num s).poolSize ∧
    (resizePool num s).poolSize ≤ s.opts.PendingScanWorkerPoolMax ∧
    (∀ (rangeOrder : List (GoString × Topic) → List (GoString × Topic)) (st : ScanLoop),
      st.server = s → st.point = ScanPoint.awaitTick →
      ((topics rangeOrder s).length : Int) = num →
      (pendingMsgScanLoopSelect rangeOrder ScanEvent.refreshTick st).server.poolSize =
        clamp (Int.floor ((num : ℚ) * (1 / 4))) 1 s.opts.PendingScanWorkerPoolMax) := by
  have key : (resizePool num s).poolSize =
      clamp (num / 4) 1 s.opts.PendingScanWorkerPoolMax := by
    rw [resizePool_reaches_target]
    unfold poolTarget clamp
    rw [quarterOf_small num h0 h]
    by_cases h1 : num / 4 < 1
    · simp only [h1, if_true]; omega
    · simp only [h1, if_false]
      by_cases h2 : num / 4 > s.opts.PendingScanWorkerPoolMax
      · simp only [h2, if_true]; omega
      · simp only [h2, if_false]; omega
  have hb : 1 ≤ clamp (num / 4) 1 s.opts.PendingScanWorkerPoolMax ∧
      clamp (num / 4) 1 s.opts.PendingScanWorkerPoolMax ≤ s.opts.PendingScanWorkerPoolMax := by
    unfold clamp
    omega
  rw [specFloor_eq]
  refine ⟨key, by rw [key]; exact hb.1, by rw [key]; exact hb.2, ?_⟩
  intro rangeOrder st hs hp hlen
  unfold pendingMsgScanLoopSelect
  rw [hp]
  simp only [hs, hlen]
  exact key

theorem resizePool_poolSize_floor_witness :
    (0 : Int) ≤ 7 ∧ (7 : Int) < 2 ^ 53 ∧ 1 ≤ (New sampleOpts).opts.PendingScanWorkerPoolMax ∧
    (resizePool 7 (New sampleOpts)).poolSize =
      clamp (Int.floor (((7 : Int) : ℚ) * (1 / 4))) 1
        (New sampleOpts).opts.PendingScanWorkerPoolMax :=
  ⟨by decide, by decide, by decide,
   (resizePool_poolSize_floor 7 (New sampleOpts) (by decide) (by decide) (by decide)).1⟩

/-- Claim C1 fails as stated: with 7 topics and `PendingScanWorkerPoolMax = 4`
the pool is sized to `1`, where `clamp(round(7 * 0.25), 1, 4)` is `2`. -/
theorem resizePool_not_round :
    (resizePool 7 (New sampleOpts)).poolSize = 1 ∧
    specPoolTarget 7 (New sampleOpts).opts.PendingScanWorkerPoolMax = 2 := by
  constructor
  · rw [resizePool_reaches_target]
    unfold poolTarget
    rw [quarterOf_small 7 (by decide) (by decide)]
    decide
  · unfold specPoolTarget clamp
    rw [round_eq]
    norm_num [New, sampleOpts]

/-! ### The topic map -/

theorem mapLookup_none_iff (m : List (GoString × Topic)) (key : GoString) :
    mapLookup m key = none ↔ key ∉ mapKeys m := by
  induction m with
  | nil => simp [mapLookup, mapKeys]
  | cons kv rest ih =>
    unfold mapLookup
    by_cases h : kv.1 = key
    · simp [h, mapKeys]
    · have h' : ¬ key = kv.1 := fun e => h e.symm
      simp only [h, if_false, ih, mapKeys, List.map_cons, List.mem_cons, h', false_or]

theorem mapStore_of_lookup_none (m : List (GoString × Topic)) (key : GoString) (t : Topic)
    (h : mapLookup m key = none) : mapStore m key t = m ++ [(key, t)] := by
  induction m with
  | nil => rfl
  | cons kv rest ih =>
    unfold mapLookup at h
    by_cases hk : kv.1 = key
    · simp [hk] at h
    · simp only [hk, if_false] at h
      unfold mapStore
      simp only [hk, if_false, ih h, List.cons_append]

theorem mapLookup_append_single (m : List (GoString × Topic)) (key other : GoString) (t : Topic) :
    mapLookup (m ++ [(key, t)]) other =
      match mapLookup m other with
      | some u => some u
      | none => if key = other then some t else none := by
  induction m with
  | nil => simp [mapLookup]
  | cons kv rest ih =>
    simp only [List.cons_append]
    unfold mapLookup
    by_cases hk : kv.1 = other
    · simp [hk]
    · simp only [hk, if_false, ih]

theorem GetTopic_of_some (name : GoString) (s : Server) (t : Topic)
    (h : mapLookup s.topicMap name = some t) : GetTopic name s = (t, s) := by
  unfold GetTopic
  simp only [h]

theorem GetTopic_of_none (name : GoString) (s : Server) (h : mapLookup s.topicMap name = none) :
    GetTopic name s =
      (⟨s.allocated, name⟩,
       if s.isLoading = 1 then
         { s with allocated := s.allocated + 1,
                  topicMap := s.topicMap ++ [(name, ⟨s.allocated, name⟩)] }
       else
         { s with allocated := s.allocated + 1,
                  topicMap := s.topicMap ++ [(name, ⟨s.allocated, name⟩)],
                  trace := s.trace ++ [Effect.topicStart ⟨s.allocated, name⟩] }) := by
  unfold GetTopic
  simp only [h, NewTopic, mapStore_of_lookup_none _ _ _ h, Topic.Start]
  by_cases hl : s.isLoading = 1 <;> simp [hl]

theorem GetTopic_topicMap_of_none (name : GoString) (s : Server)
    (h : mapLookup s.topicMap name = none) :
    (GetTopic name s).2.topicMap = s.topicMap ++ [(name, ⟨s.allocated, name⟩)] := by
  rw [GetTopic_of_none name s h]
  by_cases hl : s.isLoading = 1 <;> simp [hl]

theorem GetTopic_lookup_self (name : GoString) (s : Server) :
    mapLookup (GetTopic name s).2.topicMap name = some (GetTopic name s).1 := by
  cases h : mapLookup s.topicMap name with
  | some t => rw [GetTopic_of_some name s t h]; exact h
  | none =>
    rw [GetTopic_topicMap_of_none name s h, mapLookup_append_single, h,
      GetTopic_of_none name s h]
    simp

theorem GetTopic_mem_keys (name key : GoString) (s : Server) :
    key ∈ mapKeys (GetTopic name s).2.topicMap ↔ key ∈ mapKeys s.topicMap ∨ key = name := by
  cases h : mapLookup s.topicMap name with
  | some t =>
    rw [GetTopic_of_some name s t h]
    constructor
    · intro hk; exact Or.inl hk
    · rintro (hk | hk)
      · exact hk
      · subst hk
        by_contra hc
        rw [← mapLookup_none_iff, h] at hc
        exact Option.noConfusion hc
  | none =>
    rw [GetTopic_topicMap_of_none name s h]
    simp [mapKeys]

theorem GetTopic_namesAgree (name : GoString) (s : Server) (h : NamesAgree s.topicMap) :
    NamesAgree (GetTopic name s).2.topicMap := by
  cases hl : mapLookup s.topicMap name with
  | some t => rw [GetTopic_of_some name s t hl]; exact h
  | none =>
    rw [GetTopic_topicMap_of_none name s hl]
    intro kv hkv
    rcases List.mem_append.mp hkv with hm | hm
    · exact h kv hm
    · rw [List.mem_singleton] at hm
      subst hm
      rfl

theorem mapLookup_mem (m : List (GoString × Topic)) (key : GoString) (t : Topic)
    (h : mapLookup m key = some t) : (key, t) ∈ m := by
  induction m with
  | nil => simp [mapLookup] at h
  | cons kv rest ih =>
    unfold mapLookup at h
    by_cases hk : kv.1 = key
    · simp only [hk, if_true, Option.some.injEq] at h
      have : kv = (key, t) := Prod.ext hk h
      rw [this]; exact List.mem_cons_self _ _
    · simp only [hk, if_false] at h
      exact List.mem_cons_of_mem _ (ih h)

theorem GetTopic_name (name : GoString) (s : Server) (h : NamesAgree s.topicMap) :
    (GetTopic name s).1.name = name := by
  have h1 := GetTopic_lookup_self name s
  have h2 := mapLookup_mem _ _ _ h1
  exact GetTopic_namesAgree name s h _ h2

theorem GetTopic_keys_nodup (name : GoString) (s : Server)
    (hnd : (mapKeys s.topicMap).Nodup) : (mapKeys (GetTopic name s).2.topicMap).Nodup := by
  cases h : mapLookup s.topicMap name with
  | some t => rw [GetTopic_of_some name s t h]; exact hnd
  | none =>
    rw [GetTopic_topicMap_of_none name s h]
    have hnot := (mapLookup_none_iff _ _).mp h
    unfold mapKeys at hnd hnot ⊢
    rw [List.map_append, List.nodup_append]
    refine ⟨hnd, by simp, ?_⟩
    intro a ha hb
    simp only [List.map_cons, List.map_nil, List.mem_singleton] at hb
    subst hb
    exact hnot ha

/-- Claim C3: `GetTopic(name)` returns the Topic already mapped to `name` and
leaves the server unchanged; when there is none it appends one entry for
`name`, holding a newly allocated Topic, and leaves every other entry as it
was.  In both cases the lookups of other names are unchanged, a second
`GetTopic(name)` returns the same Topic and changes nothing, and a map with
one entry per name still has one entry per name. -/
theorem GetTopic_get_or_create (name : GoString) (s : Server) :
    (∀ t, mapLookup s.topicMap name = some t → GetTopic name s = (t, s)) ∧
    (mapLookup s.topicMap name = none →
      (GetTopic name s).2.topicMap = s.topicMap ++ [(name, (GetTopic name s).1)] ∧
      (GetTopic name s).1 = ⟨s.allocated, name⟩) ∧
    (∀ other, other ≠ name →
      mapLookup (GetTopic name s).2.topicMap other = mapLookup s.topicMap other) ∧
    GetTopic name (GetTopic name s).2 = ((GetTopic name s).1, (GetTopic name s).2) ∧
    ((mapKeys s.topicMap).Nodup → (mapKeys (GetTopic name s).2.topicMap).Nodup) := by
  refine ⟨fun t h => GetTopic_of_some name s t h, ?_, ?_, ?_, ?_⟩
  · intro h
    rw [GetTopic_topicMap_of_none name s h, GetTopic_of_none name s h]
    exact ⟨rfl, rfl⟩
  · intro other hne
    cases h : mapLookup s.topicMap name with
    | some t => rw [GetTopic_of_some name s t h]
    | none =>
      rw [GetTopic_topicMap_of_none name s h, mapLookup_append_single]
      have hne' : ¬ name = other := fun e => hne e.symm
      cases mapLookup s.topicMap other <;> simp [hne']
  · exact GetTopic_of_some name _ _ (GetTopic_lookup_self name s)
  · exact GetTopic_keys_nodup name s

/-! ### Loading the metadata -/

/-- Claim C7: when the metadata file does not exist `LoadMetadata` returns no
error and leaves the server as it was (no Topic created or started) with
`isLoading` at 0; and `isLoading` is 0 after `LoadMetadata` whatever the state
of the file. -/
theorem LoadMetadata_missing_file (s : Server) :
    LoadMetadata FileState.absent s = (none, { s with isLoading := 0 }) ∧
    ∀ file, (LoadMetadata file s).2.isLoading = 0 := by
  constructor
  · rfl
  · intro file
    unfold LoadMetadata
    cases file with
    | absent => rfl
    | unreadable errno => rfl
    | present data =>
      simp only [readOrEmpty, readFile]
      cases jsonUnmarshalMeta data <;> rfl

/-- Claim C8, as amended: when reading the metadata file fails with an error
other than file-not-found, `LoadMetadata` returns the error `failed to read
metadata ...` wrapping it, creates and starts no Topic, and leaves `isLoading`
at 0. -/
theorem LoadMetadata_unreadable_file (errno : Nat) (s : Server) :
    LoadMetadata (FileState.unreadable errno) s =
      (some (GoError.readMetadata (GoError.os errno)), { s with isLoading := 0 }) := by
  rfl

/-- Claim C8 fails as stated: on a metadata file whose read fails with error 13
(permission denied) `LoadMetadata` returns an error, where on a missing file it
returns none. -/
theorem LoadMetadata_unreadable_is_error :
    (LoadMetadata (FileState.unreadable 13) (New sampleOpts)).1 =
        some (GoError.readMetadata (GoError.os 13)) ∧
    (LoadMetadata FileState.absent (New sampleOpts)).1 = none := by
  exact ⟨rfl, rfl⟩

/-! ### Persisting, notifying and exiting -/

theorem PersistMetadata_server (env : PersistEnv) (s : Server) (file : FileState) :
    (PersistMetadata env s file).2.1 =
      { s with trace := s.trace ++ [Effect.persistMetadata] } := by
  unfold PersistMetadata
  cases env.writeErr with
  | some e => rfl
  | none =>
    cases env.renameErr with
    | some e => rfl
    | none => rfl

theorem persistAndLog_server (env : PersistEnv) (s : Server) (file : FileState) :
    ∃ logged : List Effect,
      (persistAndLog env s file).1 =
        { s with trace := s.trace ++ [Effect.persistMetadata] ++ logged } ∧
      Effect.persistMetadata ∉ logged := by
  unfold persistAndLog
  have h := PersistMetadata_server env s file
  rcases hp : PersistMetadata env s file with ⟨err, s1, file1⟩
  rw [hp] at h
  simp only at h
  cases err with
  | some e =>
    refine ⟨[Effect.logPersistFailure e], ?_, by simp⟩
    simp only [h]
  | none =>
    refine ⟨[], ?_, by simp⟩
    simp only [h, List.append_nil]

theorem closeAll_fields (l : List (GoString × Topic)) (s : Server) :
    (l.foldl (fun s kv => Topic.Close kv.2 s) s) =
      { s with trace := s.trace ++ l.map (fun kv => Effect.topicClose kv.2) } := by
  induction l generalizing s with
  | nil => simp
  | cons kv rest ih =>
    rw [List.foldl_cons, ih]
    simp [Topic.Close]

theorem Exit_of_exiting (env : PersistEnv) (s : Server) (file : FileState)
    (h : s.isExiting ≠ 0) : Exit env s file = Except.ok (s, file) := by
  unfold Exit
  rw [if_pos h]

theorem Exit_sets_exiting (env : PersistEnv) (s s1 : Server) (file file1 : FileState)
    (h : Exit env s file = Except.ok (s1, file1)) : s1.isExiting ≠ 0 := by
  by_cases he : s.isExiting ≠ 0
  · rw [Exit_of_exiting env s file he] at h
    injection h with h
    injection h with h1 h2
    rw [← h1]; exact he
  · unfold Exit at h
    rw [if_neg he] at h
    simp only at h
    obtain ⟨logged, hl, -⟩ := persistAndLog_server env { s with isExiting := 1 } file
    rw [closeAll_fields, hl] at h
    simp only [Bool.false_eq_true] at h
    split at h
    · exact Except.noConfusion h
    · injection h with h
      injection h with h1 h2
      rw [← h1]
      simp

/-- Claim C6: on a server on which `Exit` has already run (`isExiting = 1`) a
further `Exit` returns at once, leaving the server (its trace of persisted
metadata, closed topics and stores, and the exit channel included) and the
metadata file unchanged; and whenever `Exit` returns, a second `Exit` changes
nothing more. -/
theorem Exit_one_shot (env env2 : PersistEnv) (s : Server) (file : FileState) :
    (s.isExiting = 1 → Exit env s file = Except.ok (s, file)) ∧
    (∀ s1 file1, Exit env s file = Except.ok (s1, file1) →
      Exit env2 s1 file1 = Except.ok (s1, file1)) := by
  constructor
  · intro h
    exact Exit_of_exiting env s file (by rw [h]; decide)
  · intro s1 file1 h
    exact Exit_of_exiting env2 s1 file1 (Exit_sets_exiting env s s1 file file1 h)

/-- Claim C9: when the closure of `Notify` hands its value to the free slot of
`notifyChan`, `PersistMetadata` runs not at all if `isLoading` was 1 when
`Notify` was called and exactly once otherwise, and the slot is free again
afterwards; when the closure takes the exit channel instead, the server and
the metadata file are left as they were. -/
theorem Notify_persists_once (v : Nat) (s0 : Server) (env : PersistEnv) (s : Server)
    (file : FileState) :
    (s.notifyChan = [] →
      ∃ s1 file1, notifyBody (Notify v s0) NotifyCase.handoff env s file = some (s1, file1) ∧
        s1.notifyChan = [] ∧
        s1.trace.count Effect.persistMetadata =
          s.trace.count Effect.persistMetadata + (if s0.isLoading = 1 then 0 else 1) ∧
        (s0.isLoading = 1 → s1 = s ∧ file1 = file)) ∧
    (s.exitChanClosed = true →
      notifyBody (Notify v s0) NotifyCase.exit env s file = some (s, file)) := by
  constructor
  · intro hslot
    unfold notifyBody Notify
    simp only [hslot, List.length_nil, Nat.lt_one_iff, if_true, List.nil_append]
    by_cases hl : s0.isLoading = 1
    · refine ⟨_, _, by simp only [hl, decide_True, if_true]; rfl, ?_, ?_, ?_⟩
      · rfl
      · simp [hl]
      · intro _
        refine ⟨?_, rfl⟩
        cases s
        simp only [List.tail_cons] at *
        simp only [hslot]
    · obtain ⟨logged, hlog, hnot⟩ := persistAndLog_server env { s with notifyChan := [v] } file
      refine ⟨_, _, by simp only [hl, decide_False]; rfl, ?_, ?_, ?_⟩
      · rw [hlog]
        rfl
      · rw [hlog]
        simp only [hl, if_false, List.count_append, List.count_singleton,
          List.count_eq_zero_of_not_mem hnot]
        simp
      · intro h; exact absurd h hl
  · intro hc
    unfold notifyBody
    simp only [hc, if_true]

/-! ### The metadata round trip -/

theorem decodeTopicItems_marshal (names : List GoString) :
    decodeTopicItems
        (names.map (fun n => Json.object [(keyName, Json.string (toValidUTF8 n))])) =
      some (names.map toValidUTF8) := by
  induction names with
  | nil => rfl
  | cons n rest ih =>
    simp only [List.map_cons, decodeTopicItems, ih]
    simp [decodeTopicItem]

theorem jsonUnmarshalMeta_marshal (names : List GoString) :
    jsonUnmarshalMeta (jsonMarshalMeta names) = some (names.map toValidUTF8) := by
  cases names with
  | nil => simp [jsonMarshalMeta, jsonUnmarshalMeta, decodeTopics]
  | cons n rest =>
    have h := decodeTopicItems_marshal (n :: rest)
    simp only [jsonMarshalMeta, jsonUnmarshalMeta, List.foldl_cons, List.foldl_nil, if_true,
      decodeTopics, h]

theorem PersistMetadata_file_of_ok (env : PersistEnv) (s s1 : Server) (file file1 : FileState)
    (h : PersistMetadata env s file = (none, s1, file1)) :
    file1 = FileState.present
      (jsonMarshalMeta ((env.rangeOrder s.topicMap).map (fun kv => kv.2.name))) := by
  unfold PersistMetadata at h
  cases hw : env.writeErr with
  | some e => simp [hw] at h
  | none =>
    cases hr : env.renameErr with
    | some e => simp [hw, hr] at h
    | none =>
      simp only [hw, hr, Prod.mk.injEq, true_and] at h
      exact h.2.symm

theorem loadTopics_mem_keys (names : List GoString) (s : Server) (key : GoString) :
    key ∈ mapKeys (loadTopics names s).topicMap ↔ key ∈ mapKeys s.topicMap ∨ key ∈ names := by
  unfold loadTopics
  induction names generalizing s with
  | nil => simp
  | cons n rest ih =>
    rw [List.foldl_cons, ih]
    have h : (Topic.Start (GetTopic n s).1 (GetTopic n s).2).topicMap =
        (GetTopic n s).2.topicMap := rfl
    rw [h, GetTopic_mem_keys, List.mem_cons, or_assoc]

theorem loadTopics_nodup (names : List GoString) (s : Server)
    (h : (mapKeys s.topicMap).Nodup) : (mapKeys (loadTopics names s).topicMap).Nodup := by
  unfold loadTopics
  induction names generalizing s with
  | nil => exact h
  | cons n rest ih =>
    rw [List.foldl_cons]
    apply ih
    have hs : (Topic.Start (GetTopic n s).1 (GetTopic n s).2).topicMap =
        (GetTopic n s).2.topicMap := rfl
    rw [hs]
    exact (GetTopic_keys_nodup n s h)

theorem LoadMetadata_present (data : FileData) (names : List GoString) (s : Server)
    (h : jsonUnmarshalMeta data = some names) :
    LoadMetadata (FileState.present data) s =
      (none, { loadTopics names { s with isLoading := 1 } with isLoading := 0 }) := by
  unfold LoadMetadata
  simp only [readOrEmpty, readFile, h]

/-- Claim C2, as amended: for every topic map whose names are valid UTF-8 (left
unchanged by the coercion `json.Marshal` applies to strings) and whose Topics
carry the name they are stored under, if `PersistMetadata` succeeds, whatever
the order in which it visits the map, then `LoadMetadata` on a fresh server
reading that file returns no error and the fresh server's topic map holds
exactly the same names, once each. -/
theorem metadata_round_trip (env : PersistEnv) (s s1 : Server) (file file1 : FileState)
    (opts : Options) (hfair : env.Fair) (hagree : NamesAgree s.topicMap)
    (hutf8 : ∀ kv ∈ s.topicMap, toValidUTF8 kv.1 = kv.1)
    (hok : PersistMetadata env s file = (none, s1, file1)) :
    (LoadMetadata file1 (New opts)).1 = none ∧
    (∀ name, name ∈ mapKeys (LoadMetadata file1 (New opts)).2.topicMap ↔
      name ∈ mapKeys s.topicMap) ∧
    (mapKeys (LoadMetadata file1 (New opts)).2.topicMap).Nodup := by
  rw [PersistMetadata_file_of_ok env s s1 file file1 hok,
    LoadMetadata_present _ _ _ (jsonUnmarshalMeta_marshal _)]
  refine ⟨rfl, ?_, ?_⟩
  · intro name
    show name ∈ mapKeys (loadTopics _ _).topicMap ↔ _
    rw [loadTopics_mem_keys]
    simp only [New, mapKeys, List.map_nil, List.not_mem_nil, false_or, List.map_map,
      List.mem_map, Function.comp]
    constructor
    · rintro ⟨kv, hkv, rfl⟩
      have hm : kv ∈ s.topicMap := (hfair s.topicMap).mem_iff.mp hkv
      exact ⟨kv, hm, by rw [hagree kv hm, hutf8 kv hm]⟩
    · rintro ⟨kv, hkv, rfl⟩
      have hm : kv ∈ env.rangeOrder s.topicMap := (hfair s.topicMap).mem_iff.mpr hkv
      exact ⟨kv, hm, by rw [hagree kv hkv, hutf8 kv hkv]⟩
  · show (mapKeys (loadTopics _ _).topicMap).Nodup
    apply loadTopics_nodup
    simp [New, mapKeys]

theorem metadata_round_trip_witness :
    (LoadMetadata (PersistMetadata PersistEnv.ok twoTopicServer FileState.absent).2.2
        (New sampleOpts)).1 = none ∧
    (∀ name, name ∈ mapKeys (LoadMetadata
        (PersistMetadata PersistEnv.ok twoTopicServer FileState.absent).2.2
        (New sampleOpts)).2.topicMap ↔ name ∈ mapKeys twoTopicServer.topicMap) ∧
    (mapKeys (LoadMetadata (PersistMetadata PersistEnv.ok twoTopicServer FileState.absent).2.2
        (New sampleOpts)).2.topicMap).Nodup :=
  metadata_round_trip PersistEnv.ok twoTopicServer
    (PersistMetadata PersistEnv.ok twoTopicServer FileState.absent).2.1 FileState.absent
    (PersistMetadata PersistEnv.ok twoTopicServer FileState.absent).2.2 sampleOpts
    (fun m => List.Perm.refl m)
    (by intro kv hkv; simp [twoTopicServer] at hkv; rcases hkv with h | h <;> rw [h])
    (by intro kv hkv; simp [twoTopicServer] at hkv; rcases hkv with h | h <;> rw [h] <;> decide)
    rfl

/-- Claim C2 fails as stated: a topic named by the single byte `0xFF` is
persisted as the replacement rune, so that after a successful
`PersistMetadata` the fresh server loads, without error, the one name
`EF BF BD` where the first server holds the name `FF`. -/
theorem round_trip_loses_invalid_utf8 :
    (PersistMetadata PersistEnv.ok invalidNameServer FileState.absent).1 = none ∧
    (LoadMetadata (PersistMetadata PersistEnv.ok invalidNameServer FileState.absent).2.2
        (New sampleOpts)).1 = none ∧
    mapKeys (LoadMetadata (PersistMetadata PersistEnv.ok invalidNameServer FileState.absent).2.2
        (New sampleOpts)).2.topicMap = [[0xEF, 0xBF, 0xBD]] ∧
    mapKeys invalidNameServer.topicMap = [[0xFF]] := by
  refine ⟨rfl, rfl, ?_, rfl⟩
  decide

/-! ### Push and pop -/

theorem smallestId_mem (l : List (Nat × GoString)) (m : Nat × GoString)
    (h : smallestId l = some m) : m ∈ l := by
  induction l generalizing m with
  | nil => simp [smallestId] at h
  | cons e rest ih =>
    unfold smallestId at h
    cases hr : smallestId rest with
    | none =>
      simp only [hr, Option.some.injEq] at h
      rw [← h]; exact List.mem_cons_self _ _
    | some m1 =>
      simp only [hr] at h
      by_cases hle : e.1 ≤ m1.1
      · simp only [hle, if_true, Option.some.injEq] at h
        rw [← h]; exact List.mem_cons_self _ _
      · simp only [hle, if_false, Option.some.injEq] at h
        rw [← h]; exact List.mem_cons_of_mem _ (ih m1 hr)

theorem smallestId_of_increasing (e : Nat × GoString) (rest : List (Nat × GoString))
    (h : (e :: rest).Pairwise (fun a b => a.1 < b.1)) : smallestId (e :: rest) = some e := by
  rw [List.pairwise_cons] at h
  unfold smallestId
  cases hr : smallestId rest with
  | none => rfl
  | some m =>
    have hm := h.1 m (smallestId_mem rest m hr)
    simp only [Nat.le_of_lt hm, if_true]

theorem filter_head_of_increasing (e : Nat × GoString) (rest : List (Nat × GoString))
    (h : (e :: rest).Pairwise (fun a b => a.1 < b.1)) :
    (e :: rest).filter (fun x => decide (x.1 ≠ e.1)) = rest := by
  rw [List.pairwise_cons] at h
  rw [List.filter_cons_of_neg (by simp)]
  rw [List.filter_eq_self]
  intro a ha
  have := h.1 a ha
  simp only [ne_eq, decide_not, Bool.not_eq_eq_eq_not, Bool.not_true, decide_eq_false_iff_not]
  omega

theorem Push_store (topic payload : GoString) (b : Broker)
    (h : NamesAgree b.server.topicMap) :
    (Push topic payload false b).1 = true ∧
    NamesAgree (Push topic payload false b).2.server.topicMap ∧
    ((Push topic payload false b).2.store topic).nextId = (b.store topic).nextId + 1 ∧
    ((Push topic payload false b).2.store topic).ready =
      (b.store topic).ready ++ [((b.store topic).nextId, payload)] := by
  have hn := GetTopic_name topic b.server h
  unfold Push
  dsimp only
  rw [hn, Function.update_same]
  exact ⟨rfl, GetTopic_namesAgree topic b.server h, rfl, rfl⟩

theorem Pop_store (topic : GoString) (now timeout : Int) (b : Broker)
    (h : NamesAgree b.server.topicMap) :
    (Pop topic now timeout b).1 = ((b.store topic).pop now timeout).1 ∧
    NamesAgree (Pop topic now timeout b).2.server.topicMap ∧
    (Pop topic now timeout b).2.store topic = ((b.store topic).pop now timeout).2 := by
  have hn := GetTopic_name topic b.server h
  unfold Pop
  dsimp only
  rw [hn, Function.update_same]
  exact ⟨rfl, GetTopic_namesAgree topic b.server h, rfl⟩

theorem pushAll_store (topic : GoString) (payloads : List GoString) (b : Broker)
    (h : NamesAgree b.server.topicMap) :
    NamesAgree (pushAll topic payloads b).server.topicMap ∧
    ((pushAll topic payloads b).store topic).ready =
      (b.store topic).ready ++
        List.zip (List.range' (b.store topic).nextId payloads.length) payloads := by
  unfold pushAll
  induction payloads generalizing b with
  | nil => simp [h]
  | cons p rest ih =>
    obtain ⟨-, h1, h2, h3⟩ := Push_store topic p b h
    rw [List.foldl_cons]
    obtain ⟨i1, i2⟩ := ih _ h1
    refine ⟨i1, ?_⟩
    rw [i2, h2, h3, List.length_cons, List.range'_succ, List.zip_cons_cons, List.append_assoc]
    rfl

theorem popMany_of_increasing (topic : GoString) (now timeout : Int) (n : Nat) :
    ∀ (b : Broker) (l : List (Nat × GoString)), NamesAgree b.server.topicMap →
      (b.store topic).ready = l → l.Pairwise (fun a b => a.1 < b.1) →
      (popMany topic now timeout n b).1 =
        (l.take n).map Except.ok ++
          List.replicate (n - l.length) (Except.error QueueError.emptyQueue) := by
  induction n with
  | zero => intro b l _ _ _; simp [popMany]
  | succ k ih =>
    intro b l hb hl hs
    obtain ⟨p1, p2, p3⟩ := Pop_store topic now timeout b hb
    unfold popMany
    simp only
    cases l with
    | nil =>
      have hpop : (b.store topic).pop now timeout =
          (Except.error QueueError.emptyQueue, b.store topic) := by
        unfold PersistentQueue.pop
        rw [hl]; rfl
      rw [hpop] at p1 p3
      rw [p1, ih _ [] p2 (by rw [p3]; exact hl) List.Pairwise.nil]
      simp [List.replicate_succ]
    | cons e rest =>
      have hpop : (b.store topic).pop now timeout =
          (Except.ok e,
           { (b.store topic) with
               ready := rest,
               inFlight := (b.store topic).inFlight ++ [(e.1, e.2, now + timeout)] }) := by
        unfold PersistentQueue.pop
        rw [hl, smallestId_of_increasing e rest hs]
        simp only [filter_head_of_increasing e rest hs]
      rw [hpop] at p1 p3
      rw [p1, ih _ rest p2 (by rw [p3]) (List.pairwise_cons.mp hs).2]
      simp

theorem zip_range_increasing (start : Nat) (payloads : List GoString) :
    (List.zip (List.range' start payloads.length) payloads).Pairwise
      (fun a b => a.1 < b.1) := by
  have h := List.pairwise_lt_range' start payloads.length
  rw [← List.map_fst_zip (List.range' start payloads.length) payloads (by simp)] at h
  exact List.pairwise_map.mp h

/-- Claim C10: after any sequence of accepted pushes to a topic whose ready set
was empty, `len + 1` successive pops return the pushed payloads in push order,
under the consecutive (so strictly increasing) ids allocated to them, and then
fail with EmptyQueueError; with no push the first pop fails, with one push the
first pop returns that entry. -/
theorem pop_returns_pushes_in_order (topic : GoString) (payloads : List GoString)
    (now timeout : Int) (b : Broker) (hb : NamesAgree b.server.topicMap)
    (hready : (b.store topic).ready = []) :
    (popMany topic now timeout (payloads.length + 1) (pushAll topic payloads b)).1 =
      (List.zip (List.range' (b.store topic).nextId payloads.length) payloads).map Except.ok ++
        [Except.error QueueError.emptyQueue] ∧
    (List.range' (b.store topic).nextId payloads.length).Pairwise (· < ·) ∧
    (Pop topic now timeout b).1 = Except.error QueueError.emptyQueue ∧
    (∀ payload, (Pop topic now timeout (Push topic payload false b).2).1 =
      Except.ok ((b.store topic).nextId, payload)) := by
  have key : ∀ ps : List GoString,
      (popMany topic now timeout (ps.length + 1) (pushAll topic ps b)).1 =
      (List.zip (List.range' (b.store topic).nextId ps.length) ps).map Except.ok ++
        [Except.error QueueError.emptyQueue] := by
    intro ps
    obtain ⟨h1, h2⟩ := pushAll_store topic ps b hb
    rw [hready, List.nil_append] at h2
    rw [popMany_of_increasing topic now timeout _ _ _ h1 h2 (zip_range_increasing _ _)]
    have hlen : (List.zip (List.range' (b.store topic).nextId ps.length) ps).length =
        ps.length := by simp
    rw [List.take_of_length_le (by omega), hlen]
    simp
  refine ⟨key payloads, List.pairwise_lt_range' _ _, ?_, ?_⟩
  · have h := key []
    simpa [popMany, pushAll] using h
  · intro payload
    have h := key [payload]
    simp only [popMany, pushAll, List.length_singleton, List.foldl_cons, List.foldl_nil,
      List.range'_one, List.zip_cons_cons, List.zip_nil_right, List.map_cons, List.map_nil,
      List.singleton_append, List.cons.injEq] at h
    exact h.1

theorem pop_returns_pushes_in_order_witness :
    (popMany [0x74] 0 30 (([[1], [2]] : List GoString).length + 1)
        (pushAll [0x74] [[1], [2]] freshBroker)).1 =
      (List.zip (List.range' (freshBroker.store [0x74]).nextId
          ([[1], [2]] : List GoString).length) [[1], [2]]).map Except.ok ++
        [Except.error QueueError.emptyQueue] :=
  (pop_returns_pushes_in_order [0x74] [[1], [2]] 0 30 freshBroker
    (by intro kv h; simp [freshBroker, New] at h) rfl).1

/-! ### The dirty ratio -/

theorem float64OfNat_lower (n : Nat) (h : 2 ^ 53 ≤ n) :
    n / 2 ^ (Nat.log2 n - 52) * 2 ^ (Nat.log2 n - 52) ≤ float64OfNat n := by
  unfold float64OfNat
  rw [if_neg (by omega)]
  simp only
  split_ifs
  · exact le_refl _
  · exact le_refl _
  · exact Nat.mul_le_mul_right _ (Nat.le_succ _)

theorem float64OfNat_upper (n : Nat) (h : 2 ^ 53 ≤ n) :
    float64OfNat n ≤ (n / 2 ^ (Nat.log2 n - 52) + 1) * 2 ^ (Nat.log2 n - 52) := by
  unfold float64OfNat
  rw [if_neg (by omega)]
  simp only
  split_ifs
  · exact Nat.mul_le_mul_right _ (Nat.le_succ _)
  · exact Nat.mul_le_mul_right _ (Nat.le_succ _)
  · exact le_refl _

theorem log2_ge_53 (n : Nat) (h : 2 ^ 53 ≤ n) : 53 ≤ Nat.log2 n :=
  (Nat.le_log2 (by omega)).mpr h

theorem significand_bounds (n : Nat) (h : 2 ^ 53 ≤ n) :
    2 ^ 52 ≤ n / 2 ^ (Nat.log2 n - 52) ∧ n / 2 ^ (Nat.log2 n - 52) < 2 ^ 53 := by
  have hl := log2_ge_53 n h
  have hn : n ≠ 0 := by omega
  have h1 : 2 ^ Nat.log2 n ≤ n := Nat.log2_self_le hn
  have h2 : n < 2 ^ (Nat.log2 n + 1) := Nat.lt_log2_self
  have hpos : 0 < 2 ^ (Nat.log2 n - 52) := Nat.two_pow_pos _
  constructor
  · rw [Nat.le_div_iff_mul_le hpos, ← Nat.pow_add]
    have : 52 + (Nat.log2 n - 52) = Nat.log2 n := by omega
    rw [this]; exact h1
  · rw [Nat.div_lt_iff_lt_mul hpos, ← Nat.pow_add]
    have : 53 + (Nat.log2 n - 52) = Nat.log2 n + 1 := by omega
    rw [this]; exact h2

theorem log2_mono (m n : Nat) (hm : m ≠ 0) (h : m ≤ n) : Nat.log2 m ≤ Nat.log2 n :=
  (Nat.le_log2 (by omega)).mpr (le_trans (Nat.log2_self_le hm) h)

theorem float64OfNat_mono (m n : Nat) (h : m ≤ n) : float64OfNat m ≤ float64OfNat n := by
  by_cases hn : n < 2 ^ 53
  · rw [float64OfNat_small n hn, float64OfNat_small m (by omega)]
    exact h
  · have hn' : 2 ^ 53 ≤ n := by omega
    have hen := log2_ge_53 n hn'
    obtain ⟨hqn1, hqn2⟩ := significand_bounds n hn'
    have hFn := float64OfNat_lower n hn'
    have hPn : 2 ≤ 2 ^ (Nat.log2 n - 52) := by
      calc 2 = 2 ^ 1 := rfl
        _ ≤ 2 ^ (Nat.log2 n - 52) := Nat.pow_le_pow_right (by decide) (by omega)
    by_cases hm : m < 2 ^ 53
    · rw [float64OfNat_small m hm]
      have h1 : 2 ^ 52 * 2 ≤ n / 2 ^ (Nat.log2 n - 52) * 2 ^ (Nat.log2 n - 52) :=
        Nat.mul_le_mul hqn1 hPn
      omega
    · have hm' : 2 ^ 53 ≤ m := by omega
      have hem := log2_ge_53 m hm'
      obtain ⟨hqm1, hqm2⟩ := significand_bounds m hm'
      have hFm := float64OfNat_upper m hm'
      have hle : Nat.log2 m ≤ Nat.log2 n := log2_mono m n (by omega) h
      by_cases hlt : Nat.log2 m < Nat.log2 n
      · have h1 : (m / 2 ^ (Nat.log2 m - 52) + 1) * 2 ^ (Nat.log2 m - 52) ≤
            2 ^ 53 * 2 ^ (Nat.log2 m - 52) := Nat.mul_le_mul_right _ (by omega)
        have h2 : 2 ^ 53 * 2 ^ (Nat.log2 m - 52) ≤ 2 ^ 52 * 2 ^ (Nat.log2 n - 52) := by
          rw [← Nat.pow_add, ← Nat.pow_add]
          exact Nat.pow_le_pow_right (by decide) (by omega)
        have h3 : 2 ^ 52 * 2 ^ (Nat.log2 n - 52) ≤
            n / 2 ^ (Nat.log2 n - 52) * 2 ^ (Nat.log2 n - 52) := Nat.mul_le_mul_right _ hqn1
        exact le_trans hFm (le_trans h1 (le_trans h2 (le_trans h3 hFn)))
      · have heq : Nat.log2 m = Nat.log2 n := by omega
        rw [heq] at hFm hqm1 hqm2
        have hq : m / 2 ^ (Nat.log2 n - 52) ≤ n / 2 ^ (Nat.log2 n - 52) :=
          Nat.div_le_div_right h
        by_cases hqlt : m / 2 ^ (Nat.log2 n - 52) < n / 2 ^ (Nat.log2 n - 52)
        · have h1 : (m / 2 ^ (Nat.log2 n - 52) + 1) * 2 ^ (Nat.log2 n - 52) ≤
              n / 2 ^ (Nat.log2 n - 52) * 2 ^ (Nat.log2 n - 52) :=
            Nat.mul_le_mul_right _ hqlt
          exact le_trans hFm (le_trans h1 hFn)
        · have hqeq : m / 2 ^ (Nat.log2 n - 52) = n / 2 ^ (Nat.log2 n - 52) := by omega
          have dm := Nat.div_add_mod m (2 ^ (Nat.log2 n - 52))
          have dn := Nat.div_add_mod n (2 ^ (Nat.log2 n - 52))
          rw [hqeq] at dm
          have hr : m % 2 ^ (Nat.log2 n - 52) ≤ n % 2 ^ (Nat.log2 n - 52) := by
            generalize 2 ^ (Nat.log2 n - 52) * (n / 2 ^ (Nat.log2 n - 52)) = base at dm dn
            omega
          unfold float64OfNat
          rw [if_neg hm, if_neg hn]
          simp only [heq, hqeq]
          generalize n / 2 ^ (Nat.log2 n - 52) = q at *
          generalize m % 2 ^ (Nat.log2 n - 52) = rm at *
          generalize n % 2 ^ (Nat.log2 n - 52) = rn at *
          generalize 2 ^ (Nat.log2 n - 52 - 1) = half at *
          split_ifs <;>
            first
              | exact le_refl _
              | exact Nat.mul_le_mul_right _ (Nat.le_succ _)
              | (exfalso; omega)

theorem float64OfNat_pos (n : Nat) (h : 1 ≤ n) : 1 ≤ float64OfNat n := by
  have h1 := float64OfNat_mono 1 n h
  rw [float64OfNat_small 1 (by decide)] at h1
  exact h1

theorem roundHalfEven_le (x : ℚ) (bound : Int) (h : x ≤ (bound : ℚ)) :
    roundHalfEven x ≤ bound := by
  unfold roundHalfEven
  have hf : Int.floor x ≤ bound := by
    have h0 := Int.floor_le_floor h
    rwa [Int.floor_intCast] at h0
  simp only
  split_ifs with h1 h2
  · exact hf
  · exact hf
  · by_contra hc
    have heq : Int.floor x = bound := by omega
    have hx : (bound : ℚ) ≤ x := by rw [← heq]; exact Int.floor_le x
    have hxe : x = (bound : ℚ) := le_antisymm h hx
    apply h1
    rw [hxe, Int.floor_intCast]
    norm_num

theorem binExponent_nonpos (q : ℚ) (h0 : 0 < q) (h1 : q ≤ 1) : binExponent q ≤ 0 := by
  have hnum : 0 < q.num := Rat.num_pos.mpr h0
  have hden : (0 : ℚ) < (q.den : ℚ) := by exact_mod_cast q.den_pos
  have hle : (q.num : ℚ) ≤ (q.den : ℚ) := by
    have h2 : (q.num : ℚ) / (q.den : ℚ) ≤ 1 := by rw [Rat.num_div_den]; exact h1
    exact (div_le_one hden).mp h2
  have hle' : q.num ≤ (q.den : Int) := by exact_mod_cast hle
  have hnat : q.num.natAbs ≤ q.den := by omega
  have hlog := log2_mono q.num.natAbs q.den (by omega) hnat
  unfold binExponent
  simp only
  split_ifs <;> omega

theorem roundF64Pos_le_one (q : ℚ) (h0 : 0 < q) (h1 : q ≤ 1) : roundF64Pos q ≤ 1 := by
  have he := binExponent_nonpos q h0 h1
  unfold roundF64Pos
  simp only
  obtain ⟨k, hk⟩ : ∃ k : Nat, (52 - binExponent q) = (k : Int) :=
    ⟨(52 - binExponent q).toNat, by omega⟩
  rw [hk, zpow_neg, zpow_natCast]
  have hpos : (0 : ℚ) < (2 : ℚ) ^ k := by positivity
  have hb : q * (2 : ℚ) ^ k ≤ (((2 ^ k : Nat) : Int) : ℚ) := by
    push_cast
    calc q * (2 : ℚ) ^ k ≤ 1 * (2 : ℚ) ^ k := mul_le_mul_of_nonneg_right h1 hpos.le
      _ = (2 : ℚ) ^ k := one_mul _
  have hr := roundHalfEven_le _ _ hb
  have hr' : (roundHalfEven (q * (2 : ℚ) ^ k) : ℚ) ≤ (2 : ℚ) ^ k := by
    have : ((roundHalfEven (q * (2 : ℚ) ^ k) : Int) : ℚ) ≤ (((2 ^ k : Nat) : Int) : ℚ) := by
      exact_mod_cast hr
    simpa using this
  calc (roundHalfEven (q * (2 : ℚ) ^ k) : ℚ) * ((2 : ℚ) ^ k)⁻¹
      ≤ (2 : ℚ) ^ k * ((2 : ℚ) ^ k)⁻¹ :=
        mul_le_mul_of_nonneg_right hr' (inv_nonneg.mpr hpos.le)
    _ = 1 := mul_inv_cancel₀ (ne_of_gt hpos)

theorem roundF64_le_one (q : ℚ) (h0 : 0 ≤ q) (h1 : q ≤ 1) : roundF64 q ≤ 1 := by
  unfold roundF64
  by_cases hz : q = 0
  · rw [if_pos hz]; norm_num
  · rw [if_neg hz, if_neg (not_lt.mpr h0)]
    exact roundF64Pos_le_one q (lt_of_le_of_ne h0 (Ne.symm hz)) h1

theorem collectDirty_le (responses : Nat → Bool) (n : Nat) : collectDirty responses n ≤ n := by
  induction n with
  | zero => exact le_refl _
  | succ k ih =>
    unfold collectDirty
    split_ifs <;> omega

theorem f64DivInt_le_one (numDirty : Nat) (num : Int) (h1 : 1 ≤ num)
    (h2 : (numDirty : Int) ≤ num) :
    ∃ r : ℚ, f64DivInt (numDirty : Int) num = F64.fin r ∧ r ≤ 1 := by
  have hx : float64OfInt (numDirty : Int) = ((float64OfNat numDirty : Nat) : Int) := by
    unfold float64OfInt
    rw [if_neg (by omega), Int.toNat_ofNat]
  have hy : float64OfInt num = ((float64OfNat num.toNat : Nat) : Int) := by
    unfold float64OfInt
    rw [if_neg (by omega)]
  have hpos : 1 ≤ float64OfNat num.toNat := float64OfNat_pos _ (by omega)
  have hmono : float64OfNat numDirty ≤ float64OfNat num.toNat :=
    float64OfNat_mono _ _ (by omega)
  unfold f64DivInt
  simp only [hx, hy]
  rw [if_neg (by omega)]
  refine ⟨_, rfl, ?_⟩
  have hyq : (0 : ℚ) < ((float64OfNat num.toNat : Nat) : ℚ) := by exact_mod_cast hpos
  apply roundF64_le_one
  · push_cast
    positivity
  · push_cast
    rw [div_le_one hyq]
    exact_mod_cast hmono

theorem collectDirty_eq_dirtyCount (responses : Nat → Bool) (n : Nat) :
    collectDirty responses n = dirtyCount responses n := by
  unfold dirtyCount
  induction n with
  | zero => rfl
  | succ k ih =>
    rw [collectDirty, ih, List.range_succ, List.countP_append]
    cases h : responses k <;> simp [h]

theorem dirtyCount_le (responses : Nat → Bool) (n : Nat) : dirtyCount responses n ≤ n := by
  rw [← collectDirty_eq_dirtyCount]
  exact collectDirty_le responses n

theorem filterMap_get_of_lt (l : List Topic) (picks : List Nat)
    (h : ∀ i ∈ picks, i < l.length) :
    (picks.filterMap (fun i => l.get? i)).length = picks.length ∧
    ∀ t ∈ picks.filterMap (fun i => l.get? i), t ∈ l := by
  induction picks with
  | nil => simp
  | cons i rest ih =>
    have hi : i < l.length := h i (List.mem_cons_self _ _)
    obtain ⟨ih1, ih2⟩ := ih (fun j hj => h j (List.mem_cons_of_mem _ hj))
    have hget : l.get? i = some (l.get ⟨i, hi⟩) := List.get?_eq_get hi
    rw [List.filterMap_cons_some hget]
    refine ⟨by rw [List.length_cons, List.length_cons, ih1], ?_⟩
    intro t ht
    rcases List.mem_cons.mp ht with h1 | h1
    · rw [h1]; exact List.get_mem _ _ _
    · exact ih2 t h1

theorem pendingMsgScanLoopPass_of_pass (picks : List Nat) (responses : Nat → Bool)
    (st : ScanLoop) (num : Int) (hpoint : st.point = ScanPoint.pass num) :
    pendingMsgScanLoopPass picks responses st =
      { st with
          server :=
            { st.server with
                trace := st.server.trace ++
                  (picks.filterMap (fun i => st.topics.get? i)).map Effect.dispatch },
          point :=
            if F64.gt (f64DivInt (dirtyCount responses num.toNat : Nat) num)
                st.server.opts.PendingScanDirtyPercent = true
            then ScanPoint.pass num else ScanPoint.awaitTick } := by
  unfold pendingMsgScanLoopPass
  rw [hpoint]
  simp only [collectDirty_eq_dirtyCount]
  split_ifs <;> rfl

/-! ### The rounding error of the quotient -/

theorem binExponent_spec (q : ℚ) (hq : 0 < q) :
    (2 : ℚ) ^ binExponent q ≤ q ∧ q < (2 : ℚ) ^ (binExponent q + 1) := by
  have hnum : 0 < q.num := Rat.num_pos.mpr hq
  have hn0 : q.num.natAbs ≠ 0 := by omega
  have hd0 : q.den ≠ 0 := q.den_nz
  have hcast : (q.num : ℚ) = ((q.num.natAbs : Nat) : ℚ) := by
    have h := congrArg (Int.cast : Int → ℚ) (Int.natAbs_of_nonneg hnum.le)
    rw [Int.cast_natCast] at h
    exact h.symm
  have hqd : q = ((q.num.natAbs : Nat) : ℚ) / ((q.den : Nat) : ℚ) := by
    rw [← hcast, Rat.num_div_den]
  unfold binExponent
  simp only
  generalize q.num.natAbs = n at hn0 hqd ⊢
  generalize q.den = d at hd0 hqd ⊢
  have n1 : ((2 : ℚ) ^ (Nat.log2 n : Nat)) ≤ (n : ℚ) := by
    exact_mod_cast Nat.log2_self_le hn0
  have n2 : (n : ℚ) < (2 : ℚ) ^ (Nat.log2 n + 1 : Nat) := by
    exact_mod_cast (Nat.lt_log2_self : n < 2 ^ (Nat.log2 n + 1))
  have d1 : ((2 : ℚ) ^ (Nat.log2 d : Nat)) ≤ (d : ℚ) := by
    exact_mod_cast Nat.log2_self_le hd0
  have d2 : (d : ℚ) < (2 : ℚ) ^ (Nat.log2 d + 1 : Nat) := by
    exact_mod_cast (Nat.lt_log2_self : d < 2 ^ (Nat.log2 d + 1))
  have hdpos : (0 : ℚ) < (d : ℚ) := by
    have : 0 < d := Nat.pos_of_ne_zero hd0
    exact_mod_cast this
  have hnpos : (0 : ℚ) < (n : ℚ) := by
    have : 0 < n := Nat.pos_of_ne_zero hn0
    exact_mod_cast this
  have p1 : (0 : ℚ) < (2 : ℚ) ^ (Nat.log2 n : Nat) := by positivity
  have p2 : (0 : ℚ) < (2 : ℚ) ^ (Nat.log2 d : Nat) := by positivity
  have two : (2 : ℚ) ≠ 0 := by norm_num
  have elow : (2 : ℚ) ^ ((Nat.log2 n : Int) - (Nat.log2 d : Int) - 1) ≤ q := by
    have e1 : ((Nat.log2 n : Int) - (Nat.log2 d : Int) - 1) =
        ((Nat.log2 n : Nat) : Int) - ((Nat.log2 d + 1 : Nat) : Int) := by push_cast; ring
    rw [e1, zpow_sub₀ two, zpow_natCast, zpow_natCast, hqd]
    exact div_le_div₀ hnpos.le n1 hdpos d2.le
  have ehigh : q < (2 : ℚ) ^ ((Nat.log2 n : Int) - (Nat.log2 d : Int) + 1) := by
    have e1 : ((Nat.log2 n : Int) - (Nat.log2 d : Int) + 1) =
        ((Nat.log2 n + 1 : Nat) : Int) - ((Nat.log2 d : Nat) : Int) := by push_cast; ring
    rw [e1, zpow_sub₀ two, zpow_natCast, zpow_natCast, hqd, div_lt_div_iff₀ hdpos p2]
    calc (n : ℚ) * (2 : ℚ) ^ Nat.log2 d ≤ (n : ℚ) * (d : ℚ) :=
          mul_le_mul_of_nonneg_left d1 hnpos.le
      _ < (2 : ℚ) ^ (Nat.log2 n + 1) * (d : ℚ) := mul_lt_mul_of_pos_right n2 hdpos
  split_ifs with hlt
  · refine ⟨elow, ?_⟩
    have e2 : ((Nat.log2 n : Int) - (Nat.log2 d : Int) - 1 + 1) =
        (Nat.log2 n : Int) - (Nat.log2 d : Int) := by ring
    rw [e2]; exact hlt
  · exact ⟨not_lt.mp hlt, ehigh⟩

theorem roundHalfEven_error (x : ℚ) : |((roundHalfEven x : Int) : ℚ) - x| ≤ 1 / 2 := by
  have h1 : ((Int.floor x : Int) : ℚ) ≤ x := Int.floor_le x
  have h2 : x < ((Int.floor x : Int) : ℚ) + 1 := Int.lt_floor_add_one x
  unfold roundHalfEven
  simp only
  split_ifs with c1 c2
  · rw [abs_le]; constructor <;> linarith
  · rw [abs_le]; constructor <;> linarith
  · push_cast
    have c3 : 1 / 2 ≤ x - ((Int.floor x : Int) : ℚ) := not_lt.mp c1
    rw [abs_le]; constructor <;> linarith

theorem roundF64Pos_error (q : ℚ) (hq : 0 < q) :
    |roundF64Pos q - q| ≤ q * unitRoundoff := by
  obtain ⟨hlow, -⟩ := binExponent_spec q hq
  unfold roundF64Pos
  simp only
  generalize hs : (52 : Int) - binExponent q = s
  have he : binExponent q = 52 - s := by omega
  rw [he] at hlow
  have two : (2 : ℚ) ≠ 0 := by norm_num
  have hP : (0 : ℚ) < (2 : ℚ) ^ s := by positivity
  have herr := roundHalfEven_error (q * (2 : ℚ) ^ s)
  have hscaled : (2 : ℚ) ^ (52 : Int) ≤ q * (2 : ℚ) ^ s := by
    have h1 : (2 : ℚ) ^ (52 - s) * (2 : ℚ) ^ s ≤ q * (2 : ℚ) ^ s :=
      mul_le_mul_of_nonneg_right hlow hP.le
    rwa [← zpow_add₀ two, sub_add_cancel] at h1
  have h52 : (2 : ℚ) ^ (52 : Int) = 4503599627370496 := by norm_num
  rw [h52] at hscaled
  rw [zpow_neg]
  have hrew : (roundHalfEven (q * (2 : ℚ) ^ s) : ℚ) * ((2 : ℚ) ^ s)⁻¹ - q =
      ((roundHalfEven (q * (2 : ℚ) ^ s) : ℚ) - q * (2 : ℚ) ^ s) * ((2 : ℚ) ^ s)⁻¹ := by
    rw [sub_mul, mul_assoc, mul_inv_cancel₀ hP.ne', mul_one]
  rw [hrew, abs_mul, abs_of_pos (inv_pos.mpr hP)]
  have hinv : ((2 : ℚ) ^ s)⁻¹ ≤ q / 4503599627370496 := by
    rw [inv_eq_one_div, div_le_div_iff₀ hP (by norm_num)]
    linarith
  calc |(roundHalfEven (q * (2 : ℚ) ^ s) : ℚ) - q * (2 : ℚ) ^ s| * ((2 : ℚ) ^ s)⁻¹
      ≤ 1 / 2 * (q / 4503599627370496) :=
        mul_le_mul herr hinv (inv_pos.mpr hP).le (by norm_num)
    _ = q * unitRoundoff := by unfold unitRoundoff; ring

theorem roundF64_bracket (q : ℚ) (hq : 0 ≤ q) :
    q * (1 - unitRoundoff) ≤ roundF64 q ∧ roundF64 q ≤ q * (1 + unitRoundoff) := by
  unfold roundF64
  by_cases hz : q = 0
  · rw [if_pos hz, hz]; simp
  · rw [if_neg hz, if_neg (not_lt.mpr hq)]
    have h := roundF64Pos_error q (lt_of_le_of_ne hq (Ne.symm hz))
    rw [abs_le] at h
    constructor <;> linarith [h.1, h.2]

theorem f64DivInt_small (k : Nat) (num : Int) (h1 : 1 ≤ num) (h2 : num < 2 ^ 53)
    (hk : (k : Int) ≤ num) :
    f64DivInt (k : Int) num = F64.fin (roundF64 (specDirtyRatio k num)) := by
  have hx : float64OfInt (k : Int) = (k : Int) := by
    unfold float64OfInt
    rw [if_neg (by omega), Int.toNat_ofNat, float64OfNat_small k (by omega)]
  have hy : float64OfInt num = num := by
    unfold float64OfInt
    rw [if_neg (by omega), float64OfNat_small num.toNat (by omega)]
    omega
  unfold f64DivInt specDirtyRatio
  simp only [hx, hy]
  rw [if_neg (by omega)]
  push_cast
  rfl

/-! ### The decision after a sampling pass -/

/-- Claim C4, as amended: the work tick on a non-empty topic list starts a pass
with `num = min(PendingScanSelectionCount, len(topics))`.  A pass with
`num ≥ 1`, given `num` indices below `len(topics)`, sends `num` topics of the
list to the workers and changes nothing else of the server, keeps the topic
list, and counts as `numDirty` the true values among the `num` responses it
collects.  It goes back to the label `loop` with the same `num` exactly when
the quotient `float64(numDirty) / float64(num)` is greater than
`PendingScanDirtyPercent`, and back to waiting for a tick otherwise.  For
`num < 2^53` that quotient is the exact ratio `numDirty / num` rounded to the
nearest `float64`: the pass repeats whenever the exact ratio lowered by the
relative error `2^-53` still exceeds the threshold, and repeats only if the
exact ratio raised by that error exceeds it.  A threshold of at least one
always sends the loop back to waiting. -/
theorem scanPass_repeats_iff (picks : List Nat) (responses : Nat → Bool) (st : ScanLoop)
    (num : Int) (hpoint : st.point = ScanPoint.pass num) (hnum : 1 ≤ num)
    (hlen : picks.length = num.toNat) (hpicks : ∀ i ∈ picks, i < st.topics.length) :
    collectDirty responses num.toNat = dirtyCount responses num.toNat ∧
    (∃ sent : List Topic, sent.length = num.toNat ∧ (∀ t ∈ sent, t ∈ st.topics) ∧
      (pendingMsgScanLoopPass picks responses st).server =
        { st.server with trace := st.server.trace ++ sent.map Effect.dispatch }) ∧
    (pendingMsgScanLoopPass picks responses st).topics = st.topics ∧
    (pendingMsgScanLoopPass picks responses st).point =
      (if F64.gt (f64DivInt (dirtyCount responses num.toNat : Nat) num)
          st.server.opts.PendingScanDirtyPercent = true
       then ScanPoint.pass num else ScanPoint.awaitTick) ∧
    (num < 2 ^ 53 →
      f64DivInt (dirtyCount responses num.toNat : Nat) num =
        F64.fin (roundF64 (specDirtyRatio (dirtyCount responses num.toNat) num)) ∧
      ∀ threshold : ℚ, st.server.opts.PendingScanDirtyPercent = F64.fin threshold →
        ((pendingMsgScanLoopPass picks responses st).point = ScanPoint.pass num →
          threshold <
            specDirtyRatio (dirtyCount responses num.toNat) num * (1 + unitRoundoff)) ∧
        (threshold < specDirtyRatio (dirtyCount responses num.toNat) num * (1 - unitRoundoff) →
          (pendingMsgScanLoopPass picks responses st).point = ScanPoint.pass num)) ∧
    (F64.ge st.server.opts.PendingScanDirtyPercent (F64.fin 1) = true →
      (pendingMsgScanLoopPass picks responses st).point = ScanPoint.awaitTick) ∧
    (∀ (rangeOrder : List (GoString × Topic) → List (GoString × Topic)) (st0 : ScanLoop),
      st0.point = ScanPoint.awaitTick → st0.topics ≠ [] →
      pendingMsgScanLoopSelect rangeOrder ScanEvent.workerTick st0 =
        { st0 with
            point := ScanPoint.pass (min st0.server.opts.PendingScanSelectionCount
              (st0.topics.length : Int)) }) := by
  have hpass := pendingMsgScanLoopPass_of_pass picks responses st num hpoint
  have hk : ((dirtyCount responses num.toNat : Nat) : Int) ≤ num := by
    have := dirtyCount_le responses num.toNat
    omega
  obtain ⟨fl, ft⟩ := filterMap_get_of_lt st.topics picks hpicks
  refine ⟨collectDirty_eq_dirtyCount _ _, ⟨_, by rw [fl, hlen], ft, by rw [hpass]⟩,
    by rw [hpass], by rw [hpass], ?_, ?_, ?_⟩
  · intro hsmall
    have hq := f64DivInt_small (dirtyCount responses num.toNat) num hnum hsmall hk
    refine ⟨hq, ?_⟩
    intro threshold hthr
    have hratio : 0 ≤ specDirtyRatio (dirtyCount responses num.toNat) num := by
      unfold specDirtyRatio
      have : (0 : ℚ) < (num : ℚ) := by exact_mod_cast (by omega : (0 : Int) < num)
      positivity
    obtain ⟨b1, b2⟩ := roundF64_bracket _ hratio
    rw [hpass]
    simp only [hq, hthr, F64.gt, decide_eq_true_eq]
    constructor
    · intro h
      split_ifs at h with hgt
      exact lt_of_lt_of_le hgt b2
    · intro h
      rw [if_pos (lt_of_lt_of_le h b1)]
  · intro hge
    rw [hpass]
    obtain ⟨r, hr, hr1⟩ := f64DivInt_le_one (dirtyCount responses num.toNat) num hnum hk
    have hgt : F64.gt (f64DivInt (dirtyCount responses num.toNat : Nat) num)
        st.server.opts.PendingScanDirtyPercent = false := by
      rw [hr]
      cases hthr : st.server.opts.PendingScanDirtyPercent with
      | nan => rfl
      | negInf => rw [hthr] at hge; simp [F64.ge] at hge
      | posInf => rfl
      | fin t =>
        rw [hthr] at hge
        simp only [F64.ge, decide_eq_true_eq] at hge
        simp only [F64.gt, decide_eq_false_iff_not, not_lt]
        exact le_trans hr1 hge
    simp only [hgt, Bool.false_eq_true, if_false]
  · intro rangeOrder st0 hp hne
    unfold pendingMsgScanLoopSelect
    rw [hp]
    have hlen0 : st0.topics.length ≠ 0 := by
      intro h0; exact hne (List.length_eq_zero.mp h0)
    simp only [hlen0, if_false]
    congr 2
    by_cases hgt : st0.server.opts.PendingScanSelectionCount > (st0.topics.length : Int)
    · simp only [hgt, if_true]; omega
    · simp only [hgt, if_false]; omega

theorem scanPass_repeats_iff_witness :
    (pendingMsgScanLoopPass [0, 1] (fun _ => true) twoTopicPass).point = ScanPoint.pass 2 ∧
    (pendingMsgScanLoopPass [0, 1] (fun _ => true) twoTopicPass).topics =
      twoTopicPass.topics ∧
    collectDirty (fun _ => true) (2 : Int).toNat = dirtyCount (fun _ => true) (2 : Int).toNat := by
  have h := scanPass_repeats_iff [0, 1] (fun _ => true) twoTopicPass 2 rfl (by decide) rfl
    (by
      intro i hi
      simp only [List.mem_cons, List.mem_singleton, List.not_mem_nil, or_false] at hi
      rcases hi with h0 | h1
      · rw [h0]; decide
      · rw [h1]; decide)
  refine ⟨?_, h.2.2.1, h.1⟩
  apply ((h.2.2.2.2.1 (by norm_num)).2 (1 / 4) rfl).2
  have hd : dirtyCount (fun _ => true) (2 : Int).toNat = 2 := by decide
  rw [hd]
  unfold specDirtyRatio unitRoundoff
  norm_num

theorem binExponent_third : binExponent (1 / 3) = -2 := by
  obtain ⟨h1, h2⟩ := binExponent_spec (1 / 3) (by norm_num)
  have two : (1 : ℚ) < 2 := by norm_num
  have a : (2 : ℚ) ^ binExponent (1 / 3) < (2 : ℚ) ^ (-1 : Int) :=
    lt_of_le_of_lt h1 (by norm_num)
  have b : (2 : ℚ) ^ (-2 : Int) < (2 : ℚ) ^ (binExponent (1 / 3) + 1) :=
    lt_of_le_of_lt (by norm_num) h2
  have a1 := (zpow_lt_zpow_iff_right₀ two).mp a
  have b1 := (zpow_lt_zpow_iff_right₀ two).mp b
  omega

theorem roundF64_third : roundF64 (1 / 3) = thirdFloat := by
  unfold roundF64 roundF64Pos
  rw [if_neg (by norm_num), if_neg (by norm_num), binExponent_third]
  norm_num [roundHalfEven, thirdFloat]

theorem f64DivInt_one_three : f64DivInt 1 3 = F64.fin thirdFloat := by
  have h := f64DivInt_small 1 3 (by decide) (by decide) (by decide)
  have hr : specDirtyRatio 1 3 = 1 / 3 := by
    unfold specDirtyRatio
    norm_num
  rw [hr, roundF64_third] at h
  exact h

/-- Claim C4 fails as stated for the exact ratio: with the threshold set to the
`float64` nearest to one third and one dirty response out of three, the exact
ratio `1 / 3` is strictly greater than the threshold, the quotient the code
computes is the threshold itself, and the loop goes back to waiting for a
tick. -/
theorem scanPass_exact_ratio_fails :
    threeTopicPass.server.opts.PendingScanDirtyPercent = F64.fin thirdFloat ∧
    collectDirty firstDirty 3 = 1 ∧
    thirdFloat < specDirtyRatio 1 3 ∧
    f64DivInt 1 3 = F64.fin thirdFloat ∧
    (pendingMsgScanLoopPass [0, 1, 2] firstDirty threeTopicPass).point =
      ScanPoint.awaitTick := by
  refine ⟨rfl, by decide, ?_, f64DivInt_one_three, ?_⟩
  · unfold specDirtyRatio thirdFloat
    norm_num
  · rw [pendingMsgScanLoopPass_of_pass [0, 1, 2] firstDirty threeTopicPass 3 rfl]
    have hd : dirtyCount firstDirty (3 : Int).toNat = 1 := by decide
    have hq : f64DivInt ((1 : Nat) : Int) 3 = F64.fin thirdFloat := f64DivInt_one_three
    have ht : threeTopicPass.server.opts.PendingScanDirtyPercent = F64.fin thirdFloat := rfl
    simp only [hd, hq, ht, F64.gt, lt_self_iff_false, decide_False, Bool.false_eq_true,
      if_false]

/-! ### Runs on concrete inputs -/

theorem GetTopic_get_or_create_witness :
    GetTopic [0x75] twoTopicServer = (⟨1, [0x75]⟩, twoTopicServer) ∧
    (GetTopic [0x76] twoTopicServer).2.topicMap =
      twoTopicServer.topicMap ++ [([0x76], (GetTopic [0x76] twoTopicServer).1)] ∧
    (GetTopic [0x76] twoTopicServer).1 = ⟨twoTopicServer.allocated, [0x76]⟩ :=
  ⟨(GetTopic_get_or_create [0x75] twoTopicServer).1 ⟨1, [0x75]⟩ rfl,
   (GetTopic_get_or_create [0x76] twoTopicServer).2.1 rfl⟩

theorem resizeLoop_terminates_in_steps_witness :
    (resizeLoop 3 (New sampleOpts)).2 = 3 ∧
    (resizeLoop 3 (New sampleOpts)).1.trace =
      [Effect.spawnWorker, Effect.spawnWorker, Effect.spawnWorker] ∧
    (resizeLoop 1 { New sampleOpts with poolSize := 3 }).2 = 2 ∧
    (resizeLoop 1 { New sampleOpts with poolSize := 3 }).1.trace =
      [Effect.stopSignal, Effect.stopSignal] := by
  have h1 := resizeLoop_terminates_in_steps 3 (New sampleOpts)
  have h2 := resizeLoop_terminates_in_steps 1 { New sampleOpts with poolSize := 3 }
  refine ⟨h1.1, ?_, h2.1, ?_⟩
  · rw [h1.2.1]; rfl
  · rw [h2.2.1]; rfl

theorem Exit_one_shot_witness :
    Exit PersistEnv.ok twoTopicServer FileState.absent =
      Except.ok (exitedServer, twoTopicFile) ∧
    Exit PersistEnv.ok exitedServer twoTopicFile = Except.ok (exitedServer, twoTopicFile) :=
  ⟨rfl, (Exit_one_shot PersistEnv.ok PersistEnv.ok twoTopicServer FileState.absent).2
    exitedServer twoTopicFile rfl⟩

theorem Notify_persists_once_witness :
    ∃ s1 file1,
      notifyBody (Notify 7 twoTopicServer) NotifyCase.handoff PersistEnv.ok twoTopicServer
        FileState.absent = some (s1, file1) ∧
      s1.notifyChan = [] ∧
      s1.trace.count Effect.persistMetadata =
        twoTopicServer.trace.count Effect.persistMetadata +
          (if twoTopicServer.isLoading = 1 then 0 else 1) ∧
      (twoTopicServer.isLoading = 1 → s1 = twoTopicServer ∧ file1 = FileState.absent) :=
  (Notify_persists_once 7 twoTopicServer PersistEnv.ok twoTopicServer FileState.absent).1 rfl

end Levelqueue
